import Mathlib

/-!
Verification of the two graph generators of the infection-resistant-networks
repository: the clique-gate composer in networkgen.py and the social-circles
generator in networkgen/_social_circles.py.  Python code is shallowly embedded:
networkx graphs become lists of nodes and normalised edge pairs, numpy state
becomes explicit functional state, exceptions become explicit failure values,
and the process-global random generator becomes an explicit tape of naturals.
-/

namespace NetworkGen

/-!
## Undirected graphs (networkx.Graph as used by the generators)

A graph stores its nodes as a list in insertion order (networkx preserves
insertion order) and its undirected edges as a list of pairs normalised with
the smaller endpoint first.  Statements are made through the node and edge
finsets V and E, for which order and duplication are irrelevant.
-/

/-- An unordered edge, stored with the smaller endpoint first. -/
def normPair (u v : ℕ) : ℕ × ℕ := if u ≤ v then (u, v) else (v, u)

structure Graph where
  nodes : List ℕ
  edges : List (ℕ × ℕ)
  deriving DecidableEq, Repr

def Graph.empty : Graph := ⟨[], []⟩

/-- networkx add_node: a node that is already present is not added again. -/
def addNode (g : Graph) (u : ℕ) : Graph :=
  if u ∈ g.nodes then g else { g with nodes := g.nodes ++ [u] }

/-- networkx add_edge: inserts both endpoints and the undirected edge
(adding an edge twice is a no-op). -/
def addEdge (g : Graph) (u v : ℕ) : Graph :=
  if normPair u v ∈ (addNode (addNode g u) v).edges
  then addNode (addNode g u) v
  else { nodes := (addNode (addNode g u) v).nodes
         edges := (addNode (addNode g u) v).edges ++ [normPair u v] }

/-- The node set of a graph. -/
def V (g : Graph) : Finset ℕ := g.nodes.toFinset

/-- The edge set of a graph (normalised pairs). -/
def E (g : Graph) : Finset (ℕ × ℕ) := g.edges.toFinset

/-- Adjacency in a graph, in either orientation of the stored pair. -/
def GAdj (g : Graph) (u v : ℕ) : Prop := (u, v) ∈ E g ∨ (v, u) ∈ E g

/-- Reachability: the reflexive transitive closure of adjacency. -/
def Reach (g : Graph) (u v : ℕ) : Prop := Relation.ReflTransGen (GAdj g) u v

/-- The graph is nonempty and any two of its nodes are joined by a path:
it has exactly one connected component. -/
def OneComponent (g : Graph) : Prop :=
  (V g).Nonempty ∧ ∀ u ∈ V g, ∀ v ∈ V g, Reach g u v

/-- The edge list of nx.complete_graph: one edge per unordered pair of the
given nodes, in itertools.combinations order. -/
def completeEdges : List ℕ → List (ℕ × ℕ)
  | [] => []
  | x :: xs => xs.map (fun y => normPair x y) ++ completeEdges xs

/-- nx.complete_graph on an explicit node list. -/
def complete_graph (ids : List ℕ) : Graph := ⟨ids, completeEdges ids⟩

/-- networkx add_nodes_from. -/
def add_nodes_from (g : Graph) (ns : List ℕ) : Graph := ns.foldl addNode g

/-- networkx add_edges_from. -/
def add_edges_from (g : Graph) (es : List (ℕ × ℕ)) : Graph :=
  es.foldl (fun m e => addEdge m e.1 e.2) g

/-- union_components from networkgen.py: fold the components into one master
graph, adding all nodes and then all edges of each component. -/
def union_components (cs : List Graph) : Graph :=
  cs.foldl (fun m c => add_edges_from (add_nodes_from m c.nodes) c.edges) Graph.empty

/-!
## make_complete_clique_gate_graph (networkgen.py lines 39-75)
-/

/-- Python range(start, start+len) as a list. -/
def rangeList (start len : ℕ) : List ℕ := (List.range len).map (start + ·)

/-- sum(range(n)): the number of gates made for n big components. -/
def numGates (n : ℕ) : ℕ := (List.range n).sum

/-- The gate graphs: complete graphs on consecutive id blocks of size gs,
one block per value of range(0, sum(range(n))*gs, gs). -/
def gate_graphs (n gs : ℕ) : List Graph :=
  (List.range (numGates n)).map (fun k => complete_graph (rangeList (k * gs) gs))

/-- The big components: complete graphs on consecutive id blocks of size b
starting right after the gate ids. -/
def comp_graphs (n b gs : ℕ) : List Graph :=
  (List.range n).map (fun i => complete_graph (rangeList (numGates n * gs + i * b) b))

/-- One half-gate hookup loop: for i, node in enumerate(half) do
master.add_edge(node, nodes[i]).  Python raises IndexError when nodes is
exhausted before half; that exception is modelled as none. -/
def connectHalf : Graph → List ℕ → List ℕ → Option Graph
  | m, [], _ => some m
  | _, _ :: _, [] => none
  | m, gn :: gns, sn :: sns => connectHalf (addEdge m gn sn) gns sns

/-- The inner loop over dest_comp in big_comps[comp_ind+1:], carrying the
running current_gate_ind counter k.  An exception anywhere aborts the whole
computation, which Option.bind models. -/
def wireSrc (gates : List Graph) : ℕ → Graph → List Graph → Graph → Option Graph
  | _, _, [], m => some m
  | k, src, dst :: ds, m =>
    (gates.get? k).bind fun gate =>
      (connectHalf m (gate.nodes.take (gate.nodes.length / 2)) src.nodes).bind fun m1 =>
        (connectHalf m1 (gate.nodes.drop (gate.nodes.length / 2)) dst.nodes).bind fun m2 =>
          wireSrc gates (k + 1) src ds m2

/-- The outer loop over comp_ind, src_comp in enumerate(big_comps[:-1]).
The final element of the list contributes an empty inner loop, exactly as the
Python slice excludes it. -/
def wireLoop (gates : List Graph) : ℕ → List Graph → Graph → Option Graph
  | _, [], m => some m
  | k, src :: rest, m =>
    (wireSrc gates k src rest m).bind fun m1 => wireLoop gates (k + rest.length) rest m1

/-- make_complete_clique_gate_graph.  A zero gate_size or zero
big_component_size makes the Python range() calls raise ValueError (zero
step), and an oversized gate half makes the hookup loops raise IndexError;
both exceptions are modelled as none. -/
def make_complete_clique_gate_graph (n b gs : ℕ) : Option Graph :=
  if gs = 0 ∨ b = 0 then none
  else
    wireLoop (gate_graphs n gs) 0 (comp_graphs n b gs)
      (union_components (gate_graphs n gs ++ comp_graphs n b gs))

/-!
## Basic facts about the graph operations
-/

theorem normPair_comm (u v : ℕ) : normPair u v = normPair v u := by
  unfold normPair
  split_ifs with h1 h2 h3
  · have : u = v := le_antisymm h1 h2
    subst this; rfl
  · rfl
  · rfl
  · omega

theorem edges_addNode (g : Graph) (u : ℕ) : (addNode g u).edges = g.edges := by
  unfold addNode; split_ifs <;> rfl

theorem V_addNode (g : Graph) (u : ℕ) : V (addNode g u) = insert u (V g) := by
  unfold addNode V
  split_ifs with h
  · exact (Finset.insert_eq_self.2 (List.mem_toFinset.2 h)).symm
  · ext x
    simp only [List.toFinset_append, Finset.mem_union, List.mem_toFinset,
      List.toFinset_cons, List.toFinset_nil, insert_emptyc_eq, Finset.mem_insert,
      Finset.mem_singleton]
    tauto

theorem E_addNode (g : Graph) (u : ℕ) : E (addNode g u) = E g := by
  unfold E; rw [edges_addNode]

theorem V_addEdge (g : Graph) (u v : ℕ) :
    V (addEdge g u v) = insert v (insert u (V g)) := by
  unfold addEdge
  split_ifs with h
  · rw [V_addNode, V_addNode]
  · show (addNode (addNode g u) v).nodes.toFinset = _
    have h1 := V_addNode (addNode g u) v
    have h2 := V_addNode g u
    unfold V at h1 h2
    rw [h1, h2]
    rfl

theorem E_addEdge (g : Graph) (u v : ℕ) :
    E (addEdge g u v) = insert (normPair u v) (E g) := by
  unfold addEdge
  split_ifs with h
  · rw [E_addNode, E_addNode]
    have hmem : normPair u v ∈ E g := by
      unfold E
      rw [← edges_addNode g u, ← edges_addNode (addNode g u) v]
      exact List.mem_toFinset.2 h
    exact (Finset.insert_eq_self.2 hmem).symm
  · show ((addNode (addNode g u) v).edges ++ [normPair u v]).toFinset = _
    rw [List.toFinset_append, edges_addNode, edges_addNode]
    ext p
    simp only [Finset.mem_union, List.mem_toFinset, List.toFinset_cons,
      List.toFinset_nil, insert_emptyc_eq, Finset.mem_insert, Finset.mem_singleton, E]
    tauto

theorem GAdj_symm (g : Graph) : Symmetric (GAdj g) := by
  intro u v h
  unfold GAdj at *
  tauto

theorem normPair_of_le {u v : ℕ} (h : u ≤ v) : normPair u v = (u, v) := if_pos h

theorem V_add_nodes_from (ns : List ℕ) (g : Graph) :
    V (add_nodes_from g ns) = V g ∪ ns.toFinset := by
  induction ns generalizing g with
  | nil => simp [add_nodes_from, V]
  | cons a l ih =>
    show V (add_nodes_from (addNode g a) l) = _
    rw [ih, V_addNode]
    ext x
    simp only [Finset.mem_union, Finset.mem_insert, List.toFinset_cons, List.mem_toFinset]
    tauto

theorem E_add_nodes_from (ns : List ℕ) (g : Graph) :
    E (add_nodes_from g ns) = E g := by
  induction ns generalizing g with
  | nil => rfl
  | cons a l ih =>
    show E (add_nodes_from (addNode g a) l) = _
    rw [ih, E_addNode]

theorem V_add_edges_from (es : List (ℕ × ℕ)) (g : Graph) :
    V (add_edges_from g es) =
      V g ∪ (es.map Prod.fst).toFinset ∪ (es.map Prod.snd).toFinset := by
  induction es generalizing g with
  | nil => simp [add_edges_from, V]
  | cons e l ih =>
    show V (add_edges_from (addEdge g e.1 e.2) l) = _
    rw [ih, V_addEdge]
    ext x
    simp only [Finset.mem_union, Finset.mem_insert, List.map_cons, List.toFinset_cons,
      List.mem_toFinset]
    tauto

theorem E_add_edges_from (es : List (ℕ × ℕ)) (g : Graph) :
    E (add_edges_from g es) = E g ∪ (es.map (fun e => normPair e.1 e.2)).toFinset := by
  induction es generalizing g with
  | nil => simp [add_edges_from, E]
  | cons e l ih =>
    show E (add_edges_from (addEdge g e.1 e.2) l) = _
    rw [ih, E_addEdge]
    ext p
    simp only [Finset.mem_union, Finset.mem_insert, List.map_cons, List.toFinset_cons,
      List.mem_toFinset]
    tauto

theorem mem_V_union_foldl (cs : List Graph) (g : Graph) (x : ℕ) :
    x ∈ V (cs.foldl (fun m c => add_edges_from (add_nodes_from m c.nodes) c.edges) g) ↔
      x ∈ V g ∨ ∃ c ∈ cs, (x ∈ c.nodes ∨ ∃ e ∈ c.edges, x = e.1 ∨ x = e.2) := by
  induction cs generalizing g with
  | nil => simp
  | cons c l ih =>
    show x ∈ V (l.foldl _ (add_edges_from (add_nodes_from g c.nodes) c.edges)) ↔ _
    rw [ih, V_add_edges_from, V_add_nodes_from]
    simp only [Finset.mem_union, List.mem_toFinset, List.mem_map, List.mem_cons]
    aesop

theorem mem_E_union_foldl (cs : List Graph) (g : Graph) (p : ℕ × ℕ) :
    p ∈ E (cs.foldl (fun m c => add_edges_from (add_nodes_from m c.nodes) c.edges) g) ↔
      p ∈ E g ∨ ∃ c ∈ cs, ∃ e ∈ c.edges, p = normPair e.1 e.2 := by
  induction cs generalizing g with
  | nil => simp
  | cons c l ih =>
    show p ∈ E (l.foldl _ (add_edges_from (add_nodes_from g c.nodes) c.edges)) ↔ _
    rw [ih, E_add_edges_from, E_add_nodes_from]
    simp only [Finset.mem_union, List.mem_toFinset, List.mem_map, List.mem_cons]
    aesop

theorem mem_V_union_components (cs : List Graph)
    (h : ∀ c ∈ cs, ∀ e ∈ c.edges, e.1 ∈ c.nodes ∧ e.2 ∈ c.nodes) (x : ℕ) :
    x ∈ V (union_components cs) ↔ ∃ c ∈ cs, x ∈ c.nodes := by
  rw [union_components, mem_V_union_foldl]
  constructor
  · rintro (hg | ⟨c, hc, hn | ⟨e, he, rfl | rfl⟩⟩)
    · simp [V, Graph.empty] at hg
    · exact ⟨c, hc, hn⟩
    · exact ⟨c, hc, (h c hc e he).1⟩
    · exact ⟨c, hc, (h c hc e he).2⟩
  · rintro ⟨c, hc, hn⟩
    exact Or.inr ⟨c, hc, Or.inl hn⟩

theorem mem_E_union_components (cs : List Graph) (p : ℕ × ℕ) :
    p ∈ E (union_components cs) ↔ ∃ c ∈ cs, ∃ e ∈ c.edges, p = normPair e.1 e.2 := by
  rw [union_components, mem_E_union_foldl]
  constructor
  · rintro (hg | hx)
    · simp [E, Graph.empty] at hg
    · exact hx
  · exact Or.inr

/-!
## Ranges, complete graphs on ranges, and the master graph
-/

theorem mem_rangeList (s len x : ℕ) : x ∈ rangeList s len ↔ ∃ t, t < len ∧ x = s + t := by
  simp only [rangeList, List.mem_map, List.mem_range]
  constructor
  · rintro ⟨t, ht, rfl⟩; exact ⟨t, ht, rfl⟩
  · rintro ⟨t, ht, rfl⟩; exact ⟨t, ht, rfl⟩

theorem rangeList_succ (s len : ℕ) : rangeList s (len + 1) = s :: rangeList (s + 1) len := by
  unfold rangeList
  rw [List.range_succ_eq_map]
  simp only [List.map_cons, List.map_map, Nat.add_zero]
  congr 1
  apply List.map_congr_left
  intro a _
  simp [Function.comp]
  omega

theorem length_rangeList (s len : ℕ) : (rangeList s len).length = len := by
  simp [rangeList]

theorem mem_completeEdges_rangeList (len : ℕ) :
    ∀ (s : ℕ) (p : ℕ × ℕ), p ∈ completeEdges (rangeList s len) ↔
      ∃ t1 t2, t1 < t2 ∧ t2 < len ∧ p = (s + t1, s + t2) := by
  induction len with
  | zero => intro s p; simp [rangeList, completeEdges]
  | succ len ih =>
    intro s p
    rw [rangeList_succ]
    show p ∈ (rangeList (s + 1) len).map (fun y => normPair s y) ++
        completeEdges (rangeList (s + 1) len) ↔ _
    rw [List.mem_append, List.mem_map, ih]
    constructor
    · rintro (⟨y, hy, rfl⟩ | ⟨t1, t2, h12, h2, rfl⟩)
      · rw [mem_rangeList] at hy
        obtain ⟨t, ht, rfl⟩ := hy
        refine ⟨0, t + 1, by omega, by omega, ?_⟩
        rw [normPair_of_le (by omega)]
        simp only [Prod.mk.injEq]
        omega
      · refine ⟨t1 + 1, t2 + 1, by omega, by omega, ?_⟩
        simp only [Prod.mk.injEq]
        omega
    · rintro ⟨t1, t2, h12, h2, rfl⟩
      rcases Nat.eq_zero_or_pos t1 with rfl | hpos
      · refine Or.inl ⟨s + t2, ?_, ?_⟩
        · rw [mem_rangeList]; exact ⟨t2 - 1, by omega, by omega⟩
        · rw [normPair_of_le (by omega)]
          simp
      · refine Or.inr ⟨t1 - 1, t2 - 1, by omega, by omega, ?_⟩
        simp only [Prod.mk.injEq]
        omega

theorem completeEdges_endpoints :
    ∀ (ids : List ℕ) (p : ℕ × ℕ), p ∈ completeEdges ids → p.1 ∈ ids ∧ p.2 ∈ ids := by
  intro ids
  induction ids with
  | nil => intro p hp; simp [completeEdges] at hp
  | cons x xs ih =>
    intro p hp
    rw [show completeEdges (x :: xs) = xs.map (fun y => normPair x y) ++ completeEdges xs
      from rfl, List.mem_append, List.mem_map] at hp
    rcases hp with ⟨y, hy, rfl⟩ | hp
    · unfold normPair
      split_ifs <;> simp [hy]
    · have := ih p hp
      simp [this.1, this.2]

/-- The first id not used by a gate: gates use ids [0, numGates n * gs). -/
def gateBound (n gs : ℕ) : ℕ := numGates n * gs

/-- Total number of node ids used by the construction. -/
def totalIds (n b gs : ℕ) : ℕ := numGates n * gs + n * b

/-- Decomposing an id below N * s into a block index and offset. -/
theorem block_decomp (N s x : ℕ) (hs : s ≠ 0) :
    (∃ k, k < N ∧ ∃ t, t < s ∧ x = k * s + t) ↔ x < N * s := by
  constructor
  · rintro ⟨k, hk, t, ht, rfl⟩
    calc k * s + t < k * s + s := by omega
    _ = (k + 1) * s := by ring
    _ ≤ N * s := Nat.mul_le_mul_right s hk
  · intro hx
    refine ⟨x / s, ?_, x % s, Nat.mod_lt _ (Nat.pos_of_ne_zero hs), ?_⟩
    · exact Nat.div_lt_of_lt_mul (by rwa [Nat.mul_comm] at hx)
    · rw [Nat.mul_comm, Nat.div_add_mod]

/-- Uniqueness of the block decomposition. -/
theorem block_decomp_unique {k1 t1 k2 t2 s : ℕ} (h1 : t1 < s) (h2 : t2 < s)
    (h : k1 * s + t1 = k2 * s + t2) : k1 = k2 ∧ t1 = t2 := by
  have e1 : (k1 * s + t1) / s = k1 := by
    rw [Nat.mul_comm, Nat.mul_add_div (by omega), Nat.div_eq_of_lt h1, Nat.add_zero]
  have e2 : (k2 * s + t2) / s = k2 := by
    rw [Nat.mul_comm, Nat.mul_add_div (by omega), Nat.div_eq_of_lt h2, Nat.add_zero]
  have : k1 = k2 := by rw [← e1, ← e2, h]
  subst this
  exact ⟨rfl, by omega⟩

theorem mem_gate_graphs (n gs : ℕ) (c : Graph) :
    c ∈ gate_graphs n gs ↔ ∃ k, k < numGates n ∧ c = complete_graph (rangeList (k * gs) gs) := by
  simp only [gate_graphs, List.mem_map, List.mem_range]
  constructor
  · rintro ⟨k, hk, rfl⟩; exact ⟨k, hk, rfl⟩
  · rintro ⟨k, hk, rfl⟩; exact ⟨k, hk, rfl⟩

theorem mem_comp_graphs (n b gs : ℕ) (c : Graph) :
    c ∈ comp_graphs n b gs ↔
      ∃ i, i < n ∧ c = complete_graph (rangeList (gateBound n gs + i * b) b) := by
  simp only [comp_graphs, List.mem_map, List.mem_range, gateBound]
  constructor
  · rintro ⟨i, hi, rfl⟩; exact ⟨i, hi, rfl⟩
  · rintro ⟨i, hi, rfl⟩; exact ⟨i, hi, rfl⟩

theorem master_parts_closed (n b gs : ℕ) :
    ∀ c ∈ gate_graphs n gs ++ comp_graphs n b gs,
      ∀ e ∈ c.edges, e.1 ∈ c.nodes ∧ e.2 ∈ c.nodes := by
  intro c hc e he
  rcases List.mem_append.1 hc with hg | hg
  · rw [mem_gate_graphs] at hg
    obtain ⟨k, _, rfl⟩ := hg
    exact completeEdges_endpoints _ e he
  · rw [mem_comp_graphs] at hg
    obtain ⟨i, _, rfl⟩ := hg
    exact completeEdges_endpoints _ e he

/-- The node set of the unwired master graph is exactly [0, totalIds). -/
theorem V_master (n b gs : ℕ) (hgs : gs ≠ 0) (hb : b ≠ 0) :
    V (union_components (gate_graphs n gs ++ comp_graphs n b gs)) =
      Finset.range (totalIds n b gs) := by
  ext x
  rw [mem_V_union_components _ (master_parts_closed n b gs), Finset.mem_range]
  constructor
  · rintro ⟨c, hc, hn⟩
    rcases List.mem_append.1 hc with hg | hg
    · rw [mem_gate_graphs] at hg
      obtain ⟨k, hk, rfl⟩ := hg
      rw [show (complete_graph (rangeList (k * gs) gs)).nodes = rangeList (k * gs) gs
        from rfl, mem_rangeList] at hn
      obtain ⟨t, ht, rfl⟩ := hn
      have hlt : k * gs + t < numGates n * gs := (block_decomp (numGates n) gs _ hgs).1
        ⟨k, hk, t, ht, rfl⟩
      unfold totalIds
      omega
    · rw [mem_comp_graphs] at hg
      obtain ⟨i, hi, rfl⟩ := hg
      rw [show (complete_graph (rangeList (gateBound n gs + i * b) b)).nodes =
        rangeList (gateBound n gs + i * b) b from rfl, mem_rangeList] at hn
      obtain ⟨t, ht, rfl⟩ := hn
      have hlt : i * b + t < n * b := (block_decomp n b _ hb).1 ⟨i, hi, t, ht, rfl⟩
      unfold totalIds gateBound
      omega
  · intro hx
    by_cases hcase : x < numGates n * gs
    · obtain ⟨k, hk, t, ht, hxe⟩ := (block_decomp (numGates n) gs x hgs).2 hcase
      refine ⟨complete_graph (rangeList (k * gs) gs), ?_, ?_⟩
      · exact List.mem_append.2 (Or.inl ((mem_gate_graphs n gs _).2 ⟨k, hk, rfl⟩))
      · rw [show (complete_graph (rangeList (k * gs) gs)).nodes = rangeList (k * gs) gs
          from rfl, mem_rangeList]
        exact ⟨t, ht, hxe⟩
    · have hx2 : x - numGates n * gs < n * b := by unfold totalIds at hx; omega
      obtain ⟨i, hi, t, ht, hxe⟩ := (block_decomp n b _ hb).2 hx2
      refine ⟨complete_graph (rangeList (gateBound n gs + i * b) b), ?_, ?_⟩
      · exact List.mem_append.2 (Or.inr ((mem_comp_graphs n b gs _).2 ⟨i, hi, rfl⟩))
      · rw [show (complete_graph (rangeList (gateBound n gs + i * b) b)).nodes =
          rangeList (gateBound n gs + i * b) b from rfl, mem_rangeList]
        exact ⟨t, ht, by unfold gateBound; omega⟩

/-- An edge lies inside gate k. -/
def InGate (n b gs : ℕ) (p : ℕ × ℕ) : Prop :=
  ∃ k, k < numGates n ∧ ∃ t1 t2, t1 < t2 ∧ t2 < gs ∧ p = (k * gs + t1, k * gs + t2)

/-- An edge lies inside big component i. -/
def InComp (n b gs : ℕ) (p : ℕ × ℕ) : Prop :=
  ∃ i, i < n ∧ ∃ t1 t2, t1 < t2 ∧ t2 < b ∧
    p = (gateBound n gs + i * b + t1, gateBound n gs + i * b + t2)

/-- The edge set of the unwired master graph: one clique per gate and one per
big component. -/
theorem mem_E_master (n b gs : ℕ) (p : ℕ × ℕ) :
    p ∈ E (union_components (gate_graphs n gs ++ comp_graphs n b gs)) ↔
      InGate n b gs p ∨ InComp n b gs p := by
  rw [mem_E_union_components]
  constructor
  · rintro ⟨c, hc, e, he, rfl⟩
    rcases List.mem_append.1 hc with hg | hg
    · rw [mem_gate_graphs] at hg
      obtain ⟨k, hk, rfl⟩ := hg
      rw [show (complete_graph (rangeList (k * gs) gs)).edges =
        completeEdges (rangeList (k * gs) gs) from rfl,
        mem_completeEdges_rangeList] at he
      obtain ⟨t1, t2, h12, h2, rfl⟩ := he
      rw [normPair_of_le (by omega)]
      exact Or.inl ⟨k, hk, t1, t2, h12, h2, rfl⟩
    · rw [mem_comp_graphs] at hg
      obtain ⟨i, hi, rfl⟩ := hg
      rw [show (complete_graph (rangeList (gateBound n gs + i * b) b)).edges =
        completeEdges (rangeList (gateBound n gs + i * b) b) from rfl,
        mem_completeEdges_rangeList] at he
      obtain ⟨t1, t2, h12, h2, rfl⟩ := he
      rw [normPair_of_le (by omega)]
      exact Or.inr ⟨i, hi, t1, t2, h12, h2, rfl⟩
  · rintro (⟨k, hk, t1, t2, h12, h2, rfl⟩ | ⟨i, hi, t1, t2, h12, h2, rfl⟩)
    · refine ⟨complete_graph (rangeList (k * gs) gs),
        List.mem_append.2 (Or.inl ((mem_gate_graphs n gs _).2 ⟨k, hk, rfl⟩)),
        (k * gs + t1, k * gs + t2), ?_, ?_⟩
      · rw [show (complete_graph (rangeList (k * gs) gs)).edges =
          completeEdges (rangeList (k * gs) gs) from rfl, mem_completeEdges_rangeList]
        exact ⟨t1, t2, h12, h2, rfl⟩
      · rw [normPair_of_le (by omega)]
    · refine ⟨complete_graph (rangeList (gateBound n gs + i * b) b),
        List.mem_append.2 (Or.inr ((mem_comp_graphs n b gs _).2 ⟨i, hi, rfl⟩)),
        (gateBound n gs + i * b + t1, gateBound n gs + i * b + t2), ?_, ?_⟩
      · rw [show (complete_graph (rangeList (gateBound n gs + i * b) b)).edges =
          completeEdges (rangeList (gateBound n gs + i * b) b) from rfl,
          mem_completeEdges_rangeList]
        exact ⟨t1, t2, h12, h2, rfl⟩
      · rw [normPair_of_le (by omega)]

/-!
## The gate hookup loops
-/

theorem rangeList_zero (n : ℕ) : rangeList 0 n = List.range n := by
  simp [rangeList]

theorem rangeList_take :
    ∀ (m s len : ℕ), (rangeList s len).take m = rangeList s (min m len) := by
  intro m
  induction m with
  | zero => intro s len; simp [rangeList]
  | succ m ih =>
    intro s len
    cases len with
    | zero => simp [rangeList]
    | succ len =>
      rw [rangeList_succ, List.take_succ_cons, ih,
        show min (m + 1) (len + 1) = min m len + 1 by omega, rangeList_succ]

theorem rangeList_drop :
    ∀ (m s len : ℕ), (rangeList s len).drop m = rangeList (s + m) (len - m) := by
  intro m
  induction m with
  | zero => intro s len; simp
  | succ m ih =>
    intro s len
    cases len with
    | zero => simp [rangeList]
    | succ len =>
      rw [rangeList_succ, List.drop_succ_cons, ih,
        show s + 1 + m = s + (m + 1) by omega,
        show len - m = len + 1 - (m + 1) by omega]

theorem zip_rangeList :
    ∀ (h s1 s2 len : ℕ), h ≤ len →
      (rangeList s1 h).zip (rangeList s2 len) =
        (List.range h).map (fun t => (s1 + t, s2 + t)) := by
  intro h
  induction h with
  | zero => intro s1 s2 len _; simp [rangeList]
  | succ h ih =>
    intro s1 s2 len hle
    cases len with
    | zero => omega
    | succ len =>
      rw [rangeList_succ, rangeList_succ, List.zip_cons_cons, ih (s1 + 1) (s2 + 1) len
        (by omega), List.range_succ_eq_map]
      simp only [List.map_cons, List.map_map, Nat.add_zero]
      congr 1
      apply List.map_congr_left
      intro a _
      simp only [Function.comp_apply, Prod.mk.injEq]
      omega

theorem connectHalf_eq_some :
    ∀ (l1 l2 : List ℕ) (m m' : Graph), connectHalf m l1 l2 = some m' →
      l1.length ≤ l2.length ∧
      V m' = V m ∪ l1.toFinset ∪ (l2.take l1.length).toFinset ∧
      E m' = E m ∪ ((l1.zip l2).map (fun q => normPair q.1 q.2)).toFinset := by
  intro l1
  induction l1 with
  | nil =>
    intro l2 m m' h
    obtain rfl : m = m' := by simpa [connectHalf] using h
    simp [connectHalf]
  | cons gn gns ih =>
    intro l2 m m' h
    cases l2 with
    | nil => simp [connectHalf] at h
    | cons sn sns =>
      obtain ⟨hlen, hV, hE⟩ := ih sns (addEdge m gn sn) m' h
      refine ⟨by simpa using hlen, ?_, ?_⟩
      · rw [hV, V_addEdge]
        ext x
        simp only [Finset.mem_union, Finset.mem_insert, List.toFinset_cons,
          List.mem_toFinset, List.length_cons, List.take_succ_cons, List.mem_cons]
        tauto
      · rw [hE, E_addEdge]
        ext p
        simp only [Finset.mem_union, Finset.mem_insert, List.toFinset_cons,
          List.mem_toFinset, List.zip_cons_cons, List.map_cons, List.mem_cons]
        tauto

theorem connectHalf_isSome_of_le :
    ∀ (l1 l2 : List ℕ) (m : Graph), l1.length ≤ l2.length →
      ∃ m', connectHalf m l1 l2 = some m' := by
  intro l1
  induction l1 with
  | nil => intro l2 m _; exact ⟨m, rfl⟩
  | cons gn gns ih =>
    intro l2 m hle
    cases l2 with
    | nil => simp at hle
    | cons sn sns => exact ih sns (addEdge m gn sn) (by simpa using hle)

/-- The k-th gate of the gate list. -/
theorem gate_graphs_get (n gs k : ℕ) (hk : k < numGates n) :
    (gate_graphs n gs).get? k = some (complete_graph (rangeList (k * gs) gs)) := by
  unfold gate_graphs
  rw [List.get?_map, List.get?_range hk]
  rfl

/-- The i-th big component. -/
def compG (n b gs i : ℕ) : Graph := complete_graph (rangeList (gateBound n gs + i * b) b)

/-- The cross edges installed between gate k and the pair of big components
(i, j): the first half of the gate hooks one-to-one onto the first nodes of
component i, the second half onto the first nodes of component j. -/
def crossPair (n b gs k i j : ℕ) : List (ℕ × ℕ) :=
  (List.range (gs / 2)).map (fun t => (k * gs + t, gateBound n gs + i * b + t)) ++
  (List.range (gs - gs / 2)).map
    (fun t => (k * gs + gs / 2 + t, gateBound n gs + j * b + t))

/-- Cross edges produced by the inner loop: gate counter k, source i,
destinations j, j+1, ..., j+c-1. -/
def crossSrcList (n b gs i : ℕ) : ℕ → ℕ → ℕ → List (ℕ × ℕ)
  | _, _, 0 => []
  | k, j, c + 1 => crossPair n b gs k i j ++ crossSrcList n b gs i (k + 1) (j + 1) c

/-- Cross edges produced by the outer loop: gate counter k, source comps
i, i+1, ..., i+c-1 (each paired with every later one). -/
def crossLoopList (n b gs : ℕ) : ℕ → ℕ → ℕ → List (ℕ × ℕ)
  | _, _, 0 => []
  | k, i, c + 1 => crossSrcList n b gs i k (i + 1) c ++ crossLoopList n b gs (k + c) (i + 1) c

theorem mem_crossSrcList (n b gs i : ℕ) :
    ∀ (c k j : ℕ) (p : ℕ × ℕ), p ∈ crossSrcList n b gs i k j c ↔
      ∃ t, t < c ∧ p ∈ crossPair n b gs (k + t) i (j + t) := by
  intro c
  induction c with
  | zero => intro k j p; simp [crossSrcList]
  | succ c ih =>
    intro k j p
    rw [show crossSrcList n b gs i k j (c + 1) =
      crossPair n b gs k i j ++ crossSrcList n b gs i (k + 1) (j + 1) c from rfl,
      List.mem_append, ih]
    constructor
    · rintro (hp | ⟨t, ht, hp⟩)
      · exact ⟨0, by omega, by simpa using hp⟩
      · exact ⟨t + 1, by omega, by
          have : k + 1 + t = k + (t + 1) := by omega
          have h2 : j + 1 + t = j + (t + 1) := by omega
          rwa [this, h2] at hp⟩
    · rintro ⟨t, ht, hp⟩
      cases t with
      | zero => exact Or.inl (by simpa using hp)
      | succ t =>
        refine Or.inr ⟨t, by omega, ?_⟩
        have : k + 1 + t = k + (t + 1) := by omega
        have h2 : j + 1 + t = j + (t + 1) := by omega
        rwa [this, h2]

theorem numGates_succ (c : ℕ) : numGates (c + 1) = numGates c + c := by
  simp [numGates, List.range_succ]

theorem compG_nodes (n b gs i : ℕ) :
    (compG n b gs i).nodes = rangeList (gateBound n gs + i * b) b := rfl

theorem comp_graphs_eq (n b gs : ℕ) :
    comp_graphs n b gs = (rangeList 0 n).map (compG n b gs) := by
  rw [rangeList_zero]
  simp [comp_graphs, compG, gateBound]

theorem rangeList_toFinset_subset {s len N : ℕ} (h : s + len ≤ N) :
    (rangeList s len).toFinset ⊆ Finset.range N := by
  intro x hx
  rw [List.mem_toFinset, mem_rangeList] at hx
  obtain ⟨t, ht, rfl⟩ := hx
  rw [Finset.mem_range]
  omega

theorem gate_block_le (gs : ℕ) {n k : ℕ} (hk : k < numGates n) :
    k * gs + gs ≤ numGates n * gs := by
  calc k * gs + gs = (k + 1) * gs := by ring
  _ ≤ numGates n * gs := Nat.mul_le_mul_right gs hk

theorem comp_block_le {n b i : ℕ} (hi : i < n) : i * b + b ≤ n * b := by
  calc i * b + b = (i + 1) * b := by ring
  _ ≤ n * b := Nat.mul_le_mul_right b hi

theorem wireSrc_eq_some (n b gs : ℕ) :
    ∀ (c j k i : ℕ) (m m' : Graph), j + c ≤ n → i < j → k + c ≤ numGates n →
      V m = Finset.range (totalIds n b gs) →
      wireSrc (gate_graphs n gs) k (compG n b gs i)
        ((rangeList j c).map (compG n b gs)) m = some m' →
      V m' = Finset.range (totalIds n b gs) ∧
      E m' = E m ∪ (crossSrcList n b gs i k j c).toFinset ∧
      (c ≠ 0 → gs / 2 ≤ b ∧ gs - gs / 2 ≤ b) := by
  intro c
  induction c with
  | zero =>
    intro j k i m m' hjn hij hk hV h
    simp only [rangeList, List.range_zero, List.map_nil] at h
    obtain rfl : m = m' := by simpa [wireSrc] using h
    simp [crossSrcList, hV]
  | succ c ih =>
    intro j k i m m' hjn hij hk hV h
    have hkn : k < numGates n := by omega
    have hin : i < n := by omega
    have hgate : k * gs + gs ≤ numGates n * gs := gate_block_le gs hkn
    have hcompi : i * b + b ≤ n * b := comp_block_le hin
    have hcompj : j * b + b ≤ n * b := comp_block_le (by omega)
    rw [rangeList_succ, List.map_cons] at h
    rw [show wireSrc (gate_graphs n gs) k (compG n b gs i)
        (compG n b gs j :: (rangeList (j + 1) c).map (compG n b gs)) m =
      ((gate_graphs n gs).get? k).bind (fun gate =>
        (connectHalf m (gate.nodes.take (gate.nodes.length / 2))
            (compG n b gs i).nodes).bind fun m1 =>
          (connectHalf m1 (gate.nodes.drop (gate.nodes.length / 2))
              (compG n b gs j).nodes).bind fun m2 =>
            wireSrc (gate_graphs n gs) (k + 1) (compG n b gs i)
              ((rangeList (j + 1) c).map (compG n b gs)) m2) from rfl] at h
    rw [gate_graphs_get n gs k hkn, Option.some_bind] at h
    rw [show (complete_graph (rangeList (k * gs) gs)).nodes = rangeList (k * gs) gs
      from rfl] at h
    rw [length_rangeList, rangeList_take, rangeList_drop,
      Nat.min_eq_left (Nat.div_le_self gs 2), compG_nodes, compG_nodes] at h
    rw [Option.bind_eq_some] at h
    obtain ⟨m1, hc1, h⟩ := h
    rw [Option.bind_eq_some] at h
    obtain ⟨m2, hc2, h⟩ := h
    obtain ⟨hlen1, hV1, hE1⟩ := connectHalf_eq_some _ _ _ _ hc1
    obtain ⟨hlen2, hV2, hE2⟩ := connectHalf_eq_some _ _ _ _ hc2
    simp only [length_rangeList] at hlen1 hlen2 hV1 hV2
    have hsub1 : (rangeList (k * gs) (gs / 2)).toFinset ⊆
        Finset.range (totalIds n b gs) := by
      apply rangeList_toFinset_subset
      have : gs / 2 ≤ gs := Nat.div_le_self gs 2
      unfold totalIds
      omega
    have hsub1b : ((rangeList (gateBound n gs + i * b) b).take (gs / 2)).toFinset ⊆
        Finset.range (totalIds n b gs) := by
      rw [rangeList_take]
      apply rangeList_toFinset_subset
      have : min (gs / 2) b ≤ b := Nat.min_le_right _ _
      unfold totalIds gateBound
      omega
    have hsub2 : (rangeList (k * gs + gs / 2) (gs - gs / 2)).toFinset ⊆
        Finset.range (totalIds n b gs) := by
      apply rangeList_toFinset_subset
      have : gs / 2 + (gs - gs / 2) = gs := by omega
      unfold totalIds
      omega
    have hsub2b : ((rangeList (gateBound n gs + j * b) b).take (gs - gs / 2)).toFinset ⊆
        Finset.range (totalIds n b gs) := by
      rw [rangeList_take]
      apply rangeList_toFinset_subset
      have : min (gs - gs / 2) b ≤ b := Nat.min_le_right _ _
      unfold totalIds gateBound
      omega
    have hVm1 : V m1 = Finset.range (totalIds n b gs) := by
      rw [hV1, hV, Finset.union_eq_left.mpr hsub1, Finset.union_eq_left.mpr hsub1b]
    have hVm2 : V m2 = Finset.range (totalIds n b gs) := by
      rw [hV2, hVm1, Finset.union_eq_left.mpr hsub2, Finset.union_eq_left.mpr hsub2b]
    have hEm1 : E m1 = E m ∪
        ((List.range (gs / 2)).map
          (fun t => (k * gs + t, gateBound n gs + i * b + t))).toFinset := by
      rw [hE1, zip_rangeList _ _ _ _ hlen1, List.map_map]
      congr 1
      congr 1
      apply List.map_congr_left
      intro t ht
      rw [List.mem_range] at ht
      simp only [Function.comp_apply]
      apply normPair_of_le
      have : gs / 2 ≤ gs := Nat.div_le_self gs 2
      unfold gateBound
      omega
    have hEm2 : E m2 = E m1 ∪
        ((List.range (gs - gs / 2)).map
          (fun t => (k * gs + gs / 2 + t, gateBound n gs + j * b + t))).toFinset := by
      rw [hE2, zip_rangeList _ _ _ _ hlen2, List.map_map]
      congr 1
      congr 1
      apply List.map_congr_left
      intro t ht
      rw [List.mem_range] at ht
      simp only [Function.comp_apply]
      apply normPair_of_le
      have : gs / 2 + t < gs := by omega
      unfold gateBound
      omega
    obtain ⟨hV3, hE3, _⟩ := ih (j + 1) (k + 1) i m2 m' (by omega) (by omega) (by omega)
      hVm2 h
    refine ⟨hV3, ?_, fun _ => ⟨hlen1, hlen2⟩⟩
    rw [hE3, hEm2, hEm1]
    rw [show crossSrcList n b gs i k j (c + 1) =
      crossPair n b gs k i j ++ crossSrcList n b gs i (k + 1) (j + 1) c from rfl]
    rw [show crossPair n b gs k i j =
      (List.range (gs / 2)).map (fun t => (k * gs + t, gateBound n gs + i * b + t)) ++
      (List.range (gs - gs / 2)).map
        (fun t => (k * gs + gs / 2 + t, gateBound n gs + j * b + t)) from rfl]
    rw [List.toFinset_append, List.toFinset_append]
    ext p
    simp only [Finset.mem_union]
    tauto

theorem wireSrc_isSome (n b gs : ℕ) (h1 : gs / 2 ≤ b) (h2 : gs - gs / 2 ≤ b) :
    ∀ (c j k i : ℕ) (m : Graph), k + c ≤ numGates n →
      ∃ m', wireSrc (gate_graphs n gs) k (compG n b gs i)
        ((rangeList j c).map (compG n b gs)) m = some m' := by
  intro c
  induction c with
  | zero =>
    intro j k i m _
    simp only [rangeList, List.range_zero, List.map_nil]
    exact ⟨m, rfl⟩
  | succ c ih =>
    intro j k i m hk
    have hkn : k < numGates n := by omega
    rw [rangeList_succ, List.map_cons]
    rw [show wireSrc (gate_graphs n gs) k (compG n b gs i)
        (compG n b gs j :: (rangeList (j + 1) c).map (compG n b gs)) m =
      ((gate_graphs n gs).get? k).bind (fun gate =>
        (connectHalf m (gate.nodes.take (gate.nodes.length / 2))
            (compG n b gs i).nodes).bind fun m1 =>
          (connectHalf m1 (gate.nodes.drop (gate.nodes.length / 2))
              (compG n b gs j).nodes).bind fun m2 =>
            wireSrc (gate_graphs n gs) (k + 1) (compG n b gs i)
              ((rangeList (j + 1) c).map (compG n b gs)) m2) from rfl]
    rw [gate_graphs_get n gs k hkn, Option.some_bind]
    rw [show (complete_graph (rangeList (k * gs) gs)).nodes = rangeList (k * gs) gs
      from rfl]
    rw [length_rangeList, rangeList_take, rangeList_drop,
      Nat.min_eq_left (Nat.div_le_self gs 2), compG_nodes, compG_nodes]
    obtain ⟨m1, hm1⟩ := connectHalf_isSome_of_le (rangeList (k * gs) (gs / 2))
      (rangeList (gateBound n gs + i * b) b) m
      (by simp only [length_rangeList]; exact h1)
    rw [hm1, Option.some_bind]
    obtain ⟨m2, hm2⟩ := connectHalf_isSome_of_le (rangeList (k * gs + gs / 2) (gs - gs / 2))
      (rangeList (gateBound n gs + j * b) b) m1
      (by simp only [length_rangeList]; exact h2)
    rw [hm2, Option.some_bind]
    exact ih (j + 1) (k + 1) i m2 (by omega)

theorem wireLoop_eq_some (n b gs : ℕ) :
    ∀ (c i k : ℕ) (m m' : Graph), i + c ≤ n → k + numGates c ≤ numGates n →
      V m = Finset.range (totalIds n b gs) →
      wireLoop (gate_graphs n gs) k ((rangeList i c).map (compG n b gs)) m = some m' →
      V m' = Finset.range (totalIds n b gs) ∧
      E m' = E m ∪ (crossLoopList n b gs k i c).toFinset ∧
      (2 ≤ c → gs / 2 ≤ b ∧ gs - gs / 2 ≤ b) := by
  intro c
  induction c with
  | zero =>
    intro i k m m' hin hk hV h
    simp only [rangeList, List.range_zero, List.map_nil] at h
    obtain rfl : m = m' := by simpa [wireLoop] using h
    simp [crossLoopList, hV]
  | succ c ih =>
    intro i k m m' hin hk hV h
    rw [rangeList_succ, List.map_cons] at h
    rw [show wireLoop (gate_graphs n gs) k
        (compG n b gs i :: (rangeList (i + 1) c).map (compG n b gs)) m =
      (wireSrc (gate_graphs n gs) k (compG n b gs i)
          ((rangeList (i + 1) c).map (compG n b gs)) m).bind (fun m1 =>
        wireLoop (gate_graphs n gs)
          (k + ((rangeList (i + 1) c).map (compG n b gs)).length)
          ((rangeList (i + 1) c).map (compG n b gs)) m1) from rfl] at h
    rw [List.length_map, length_rangeList, Option.bind_eq_some] at h
    obtain ⟨m1, hs, h⟩ := h
    have hng := numGates_succ c
    obtain ⟨hV1, hE1, hhalf⟩ := wireSrc_eq_some n b gs c (i + 1) k i m m1
      (by omega) (by omega) (by omega) hV hs
    obtain ⟨hV2, hE2, _⟩ := ih (i + 1) (k + c) m1 m' (by omega) (by omega) hV1 h
    refine ⟨hV2, ?_, fun hc => hhalf (by omega)⟩
    rw [hE2, hE1]
    rw [show crossLoopList n b gs k i (c + 1) =
      crossSrcList n b gs i k (i + 1) c ++ crossLoopList n b gs (k + c) (i + 1) c
      from rfl]
    rw [List.toFinset_append, Finset.union_assoc]

theorem wireLoop_isSome (n b gs : ℕ) (h1 : gs / 2 ≤ b) (h2 : gs - gs / 2 ≤ b) :
    ∀ (c i k : ℕ) (m : Graph), k + numGates c ≤ numGates n →
      ∃ m', wireLoop (gate_graphs n gs) k ((rangeList i c).map (compG n b gs)) m
        = some m' := by
  intro c
  induction c with
  | zero =>
    intro i k m _
    simp only [rangeList, List.range_zero, List.map_nil]
    exact ⟨m, rfl⟩
  | succ c ih =>
    intro i k m hk
    have hng := numGates_succ c
    rw [rangeList_succ, List.map_cons]
    rw [show wireLoop (gate_graphs n gs) k
        (compG n b gs i :: (rangeList (i + 1) c).map (compG n b gs)) m =
      (wireSrc (gate_graphs n gs) k (compG n b gs i)
          ((rangeList (i + 1) c).map (compG n b gs)) m).bind (fun m1 =>
        wireLoop (gate_graphs n gs)
          (k + ((rangeList (i + 1) c).map (compG n b gs)).length)
          ((rangeList (i + 1) c).map (compG n b gs)) m1) from rfl]
    obtain ⟨m1, hm1⟩ := wireSrc_isSome n b gs h1 h2 c (i + 1) k i m (by omega)
    rw [hm1, Option.some_bind, List.length_map, length_rangeList]
    exact ih (i + 1) (k + c) m1 (by omega)

/-- Everything a successful run of the composer determines: the guard values,
the node set, the edge set (cliques plus cross edges), and the size
constraint that the hookup loops enforced. -/
theorem make_some_spec (n b gs : ℕ) (G : Graph)
    (h : make_complete_clique_gate_graph n b gs = some G) :
    gs ≠ 0 ∧ b ≠ 0 ∧ V G = Finset.range (totalIds n b gs) ∧
    (∀ p, p ∈ E G ↔ InGate n b gs p ∨ InComp n b gs p ∨
      p ∈ crossLoopList n b gs 0 0 n) ∧
    (2 ≤ n → gs / 2 ≤ b ∧ gs - gs / 2 ≤ b) := by
  unfold make_complete_clique_gate_graph at h
  by_cases hcond : gs = 0 ∨ b = 0
  · rw [if_pos hcond] at h
    cases h
  · rw [if_neg hcond] at h
    push_neg at hcond
    obtain ⟨hgs, hb⟩ := hcond
    have hVm := V_master n b gs hgs hb
    rw [comp_graphs_eq] at h hVm
    obtain ⟨hV, hE, hhalves⟩ := wireLoop_eq_some n b gs n 0 0 _ G (by omega) (by omega)
      hVm h
    refine ⟨hgs, hb, hV, ?_, hhalves⟩
    intro p
    rw [hE, Finset.mem_union, ← comp_graphs_eq, mem_E_master, List.mem_toFinset, or_assoc]

/-- When the documented preconditions hold the composer succeeds. -/
theorem make_isSome (n b gs : ℕ) (hgs : gs ≠ 0) (hb : b ≠ 0)
    (h1 : gs / 2 ≤ b) (h2 : gs - gs / 2 ≤ b) :
    ∃ G, make_complete_clique_gate_graph n b gs = some G := by
  unfold make_complete_clique_gate_graph
  rw [if_neg (by tauto), comp_graphs_eq]
  exact wireLoop_isSome n b gs h1 h2 n 0 0 _ (by omega)

/-!
## Analysis of the cross edges
-/

theorem mem_crossPair {n b gs k i j : ℕ} {p : ℕ × ℕ} :
    p ∈ crossPair n b gs k i j ↔
      (∃ t, t < gs / 2 ∧ p = (k * gs + t, gateBound n gs + i * b + t)) ∨
      (∃ t, t < gs - gs / 2 ∧ p = (k * gs + gs / 2 + t, gateBound n gs + j * b + t)) := by
  simp only [crossPair, List.mem_append, List.mem_map, List.mem_range]
  constructor
  · rintro (⟨t, ht, rfl⟩ | ⟨t, ht, rfl⟩)
    · exact Or.inl ⟨t, ht, rfl⟩
    · exact Or.inr ⟨t, ht, rfl⟩
  · rintro (⟨t, ht, rfl⟩ | ⟨t, ht, rfl⟩)
    · exact Or.inl ⟨t, ht, rfl⟩
    · exact Or.inr ⟨t, ht, rfl⟩

theorem crossPair_fst {n b gs k i j : ℕ} {p : ℕ × ℕ} (h : p ∈ crossPair n b gs k i j) :
    ∃ o, o < gs ∧ p.1 = k * gs + o := by
  rcases mem_crossPair.1 h with ⟨t, ht, rfl⟩ | ⟨t, ht, rfl⟩
  · exact ⟨t, by omega, rfl⟩
  · exact ⟨gs / 2 + t, by omega, by simp; omega⟩

theorem crossPair_snd {n b gs k i j : ℕ} {p : ℕ × ℕ} (h : p ∈ crossPair n b gs k i j) :
    gateBound n gs ≤ p.2 := by
  rcases mem_crossPair.1 h with ⟨t, ht, rfl⟩ | ⟨t, ht, rfl⟩ <;> simp <;> omega

theorem crossPair_fst_inj {n b gs k i j : ℕ} {p q : ℕ × ℕ}
    (hp : p ∈ crossPair n b gs k i j) (hq : q ∈ crossPair n b gs k i j)
    (hfst : p.1 = q.1) : p = q := by
  rcases mem_crossPair.1 hp with ⟨t1, ht1, rfl⟩ | ⟨t1, ht1, rfl⟩ <;>
    rcases mem_crossPair.1 hq with ⟨t2, ht2, rfl⟩ | ⟨t2, ht2, rfl⟩ <;>
    simp only [Prod.mk.injEq] at hfst ⊢ <;> omega

theorem crossSrcList_fst_inj {n b gs i : ℕ} (hgs : gs ≠ 0) {c k j : ℕ} {p q : ℕ × ℕ}
    (hp : p ∈ crossSrcList n b gs i k j c) (hq : q ∈ crossSrcList n b gs i k j c)
    (hfst : p.1 = q.1) : p = q := by
  rw [mem_crossSrcList] at hp hq
  obtain ⟨t1, ht1, hp⟩ := hp
  obtain ⟨t2, ht2, hq⟩ := hq
  obtain ⟨o1, ho1, he1⟩ := crossPair_fst hp
  obtain ⟨o2, ho2, he2⟩ := crossPair_fst hq
  have : k + t1 = k + t2 ∧ o1 = o2 :=
    block_decomp_unique ho1 ho2 (by rw [← he1, ← he2, hfst])
  obtain ⟨hteq, -⟩ := this
  obtain rfl : t1 = t2 := by omega
  exact crossPair_fst_inj hp hq hfst

theorem crossLoop_shape (n b gs : ℕ) :
    ∀ (c i k : ℕ) (p : ℕ × ℕ), p ∈ crossLoopList n b gs k i c →
      ∃ k' i' j', k ≤ k' ∧ k' < k + numGates c ∧ i ≤ i' ∧ i' < j' ∧ j' < i + c ∧
        p ∈ crossPair n b gs k' i' j' := by
  intro c
  induction c with
  | zero => intro i k p hp; simp [crossLoopList] at hp
  | succ c ih =>
    intro i k p hp
    have hng := numGates_succ c
    rw [show crossLoopList n b gs k i (c + 1) =
      crossSrcList n b gs i k (i + 1) c ++ crossLoopList n b gs (k + c) (i + 1) c
      from rfl, List.mem_append] at hp
    rcases hp with hp | hp
    · rw [mem_crossSrcList] at hp
      obtain ⟨t, ht, hp⟩ := hp
      exact ⟨k + t, i, i + 1 + t, by omega, by omega, by omega, by omega, by omega, hp⟩
    · obtain ⟨k', i', j', h1, h2, h3, h4, h5, hp⟩ := ih (i + 1) (k + c) p hp
      exact ⟨k', i', j', by omega, by omega, by omega, by omega, by omega, hp⟩

theorem crossLoop_fst_inj (n b gs : ℕ) (hgs : gs ≠ 0) :
    ∀ (c i k : ℕ) (p q : ℕ × ℕ), p ∈ crossLoopList n b gs k i c →
      q ∈ crossLoopList n b gs k i c → p.1 = q.1 → p = q := by
  intro c
  induction c with
  | zero => intro i k p q hp _ _; simp [crossLoopList] at hp
  | succ c ih =>
    intro i k p q hp hq hfst
    rw [show crossLoopList n b gs k i (c + 1) =
      crossSrcList n b gs i k (i + 1) c ++ crossLoopList n b gs (k + c) (i + 1) c
      from rfl, List.mem_append] at hp hq
    have gate_of_src : ∀ {r : ℕ × ℕ}, r ∈ crossSrcList n b gs i k (i + 1) c →
        ∃ kr o, kr < k + c ∧ k ≤ kr ∧ o < gs ∧ r.1 = kr * gs + o := by
      intro r hr
      rw [mem_crossSrcList] at hr
      obtain ⟨t, ht, hr⟩ := hr
      obtain ⟨o, ho, he⟩ := crossPair_fst hr
      exact ⟨k + t, o, by omega, by omega, ho, he⟩
    have gate_of_rec : ∀ {r : ℕ × ℕ}, r ∈ crossLoopList n b gs (k + c) (i + 1) c →
        ∃ kr o, k + c ≤ kr ∧ o < gs ∧ r.1 = kr * gs + o := by
      intro r hr
      obtain ⟨k', i', j', h1, _, _, _, _, hr⟩ := crossLoop_shape n b gs c (i + 1) (k + c) r hr
      obtain ⟨o, ho, he⟩ := crossPair_fst hr
      exact ⟨k', o, h1, ho, he⟩
    rcases hp with hp | hp <;> rcases hq with hq | hq
    · exact crossSrcList_fst_inj hgs hp hq hfst
    · obtain ⟨k1, o1, hk1, _, ho1, he1⟩ := gate_of_src hp
      obtain ⟨k2, o2, hk2, ho2, he2⟩ := gate_of_rec hq
      have := block_decomp_unique ho1 ho2 (by rw [← he1, ← he2, hfst])
      omega
    · obtain ⟨k1, o1, hk1, _, ho1, he1⟩ := gate_of_src hq
      obtain ⟨k2, o2, hk2, ho2, he2⟩ := gate_of_rec hp
      have := block_decomp_unique ho2 ho1 (by rw [← he1, ← he2, hfst])
      omega
    · exact ih (i + 1) (k + c) p q hp hq hfst

theorem crossLoop_pairs (n b gs : ℕ) :
    ∀ (c i k i' j' : ℕ), i ≤ i' → i' < j' → j' < i + c →
      ∃ k', k ≤ k' ∧ k' < k + numGates c ∧
        ∀ p ∈ crossPair n b gs k' i' j', p ∈ crossLoopList n b gs k i c := by
  intro c
  induction c with
  | zero => intro i k i' j' h1 h2 h3; omega
  | succ c ih =>
    intro i k i' j' h1 h2 h3
    have hng := numGates_succ c
    rcases Nat.eq_or_lt_of_le h1 with heq | hlt
    · subst heq
      refine ⟨k + (j' - i - 1), by omega, by omega, ?_⟩
      intro p hp
      rw [show crossLoopList n b gs k i (c + 1) =
        crossSrcList n b gs i k (i + 1) c ++ crossLoopList n b gs (k + c) (i + 1) c
        from rfl, List.mem_append]
      left
      rw [mem_crossSrcList]
      refine ⟨j' - i - 1, by omega, ?_⟩
      rw [show i + 1 + (j' - i - 1) = j' by omega]
      exact hp
    · obtain ⟨k', hk1, hk2, hsub⟩ := ih (i + 1) (k + c) i' j' (by omega) h2 (by omega)
      refine ⟨k', by omega, by omega, ?_⟩
      intro p hp
      rw [show crossLoopList n b gs k i (c + 1) =
        crossSrcList n b gs i k (i + 1) c ++ crossLoopList n b gs (k + c) (i + 1) c
        from rfl, List.mem_append]
      exact Or.inr (hsub p hp)

theorem crossLoop_gates (n b gs : ℕ) :
    ∀ (c i k k' : ℕ), k ≤ k' → k' < k + numGates c →
      ∃ i' j', i ≤ i' ∧ i' < j' ∧ j' < i + c ∧
        ∀ p ∈ crossPair n b gs k' i' j', p ∈ crossLoopList n b gs k i c := by
  intro c
  induction c with
  | zero => intro i k k' h1 h2; simp [numGates] at h2; omega
  | succ c ih =>
    intro i k k' h1 h2
    have hng := numGates_succ c
    by_cases hcase : k' < k + c
    · refine ⟨i, i + 1 + (k' - k), by omega, by omega, by omega, ?_⟩
      intro p hp
      rw [show crossLoopList n b gs k i (c + 1) =
        crossSrcList n b gs i k (i + 1) c ++ crossLoopList n b gs (k + c) (i + 1) c
        from rfl, List.mem_append]
      left
      rw [mem_crossSrcList]
      refine ⟨k' - k, by omega, ?_⟩
      rw [show k + (k' - k) = k' by omega]
      exact hp
    · obtain ⟨i', j', hi1, hi2, hi3, hsub⟩ := ih (i + 1) (k + c) k' (by omega) (by omega)
      refine ⟨i', j', by omega, hi2, by omega, ?_⟩
      intro p hp
      rw [show crossLoopList n b gs k i (c + 1) =
        crossSrcList n b gs i k (i + 1) c ++ crossLoopList n b gs (k + c) (i + 1) c
        from rfl, List.mem_append]
      exact Or.inr (hsub p hp)

/-!
## Claims about the clique-gate composer
-/

theorem numGates_choose (n : ℕ) : numGates n = n.choose 2 := by
  induction n with
  | zero => rfl
  | succ n ih =>
    rw [numGates_succ, ih, Nat.choose_succ_succ, Nat.choose_one_right, Nat.add_comm]

/-- The graph of the worked example make_complete_clique_gate_graph(2, 3, 2):
one 2-node gate and two 3-node components. -/
def demoG : Graph :=
  ⟨[0, 1, 2, 3, 4, 5, 6, 7],
   [(0, 1), (2, 3), (2, 4), (3, 4), (5, 6), (5, 7), (6, 7), (0, 2), (1, 5)]⟩

/-- Claim C2: for every valid input (num_big_components at least 2,
big_component_size at least 1, even gate_size at least 2 with half the gate
fitting in a component), the composer succeeds and the resulting graph has
exactly num_big_components * big_component_size + C(num_big_components, 2) *
gate_size nodes. -/
theorem C2_node_count (n b gs : ℕ) (hn : 2 ≤ n) (hb : 1 ≤ b) (hgs : 2 ≤ gs)
    (heven : gs % 2 = 0) (hhalf : gs / 2 ≤ b) :
    ∃ G, make_complete_clique_gate_graph n b gs = some G ∧
      (V G).card = n * b + n.choose 2 * gs := by
  obtain ⟨G, hG⟩ := make_isSome n b gs (by omega) (by omega) hhalf (by omega)
  obtain ⟨-, -, hV, -, -⟩ := make_some_spec n b gs G hG
  refine ⟨G, hG, ?_⟩
  rw [hV, Finset.card_range]
  unfold totalIds
  rw [numGates_choose]
  omega

set_option maxRecDepth 100000 in
/-- Witness for C2 at the worked example (2, 3, 2): 8 nodes. -/
theorem C2_witness :
    make_complete_clique_gate_graph 2 3 2 = some demoG ∧
    (V demoG).card = 2 * 3 + Nat.choose 2 2 * 2 := by
  obtain ⟨G, hG, hcard⟩ := C2_node_count 2 3 2 (by norm_num) (by norm_num)
    (by norm_num) (by norm_num) (by norm_num)
  have hdemo : make_complete_clique_gate_graph 2 3 2 = some demoG := by decide
  have : G = demoG := by
    rw [hG] at hdemo
    exact Option.some.inj hdemo
  subst this
  exact ⟨hG, hcard⟩

/-- The structural facts behind claim C1, stated with the code quantities. -/
theorem clique_gate_facts (n b gs : ℕ) (hn : 2 ≤ n) (hb : 1 ≤ b) (hgs : 2 ≤ gs)
    (hhalf1 : gs / 2 ≤ b) (hhalf2 : gs - gs / 2 ≤ b) (G : Graph)
    (hG : make_complete_clique_gate_graph n b gs = some G) :
    V G = Finset.range (totalIds n b gs) ∧
    (∀ k t1 t2, k < numGates n → t1 < gs → t2 < gs → t1 ≠ t2 →
      GAdj G (k * gs + t1) (k * gs + t2)) ∧
    (∀ i t1 t2, i < n → t1 < b → t2 < b → t1 ≠ t2 →
      GAdj G (gateBound n gs + i * b + t1) (gateBound n gs + i * b + t2)) ∧
    OneComponent G := by
  obtain ⟨hgs0, hb0, hV, hE, -⟩ := make_some_spec n b gs G hG
  have hGate : ∀ k t1 t2, k < numGates n → t1 < t2 → t2 < gs →
      (k * gs + t1, k * gs + t2) ∈ E G :=
    fun k t1 t2 hk h12 h2 => (hE _).2 (Or.inl ⟨k, hk, t1, t2, h12, h2, rfl⟩)
  have hComp : ∀ i t1 t2, i < n → t1 < t2 → t2 < b →
      (gateBound n gs + i * b + t1, gateBound n gs + i * b + t2) ∈ E G :=
    fun i t1 t2 hi h12 h2 => (hE _).2 (Or.inr (Or.inl ⟨i, hi, t1, t2, h12, h2, rfl⟩))
  have hCross : ∀ p, p ∈ crossLoopList n b gs 0 0 n → p ∈ E G :=
    fun p hp => (hE p).2 (Or.inr (Or.inr hp))
  have gateAdj : ∀ k t1 t2, k < numGates n → t1 < gs → t2 < gs → t1 ≠ t2 →
      GAdj G (k * gs + t1) (k * gs + t2) := by
    intro k t1 t2 hk h1 h2 hne
    rcases Nat.lt_or_ge t1 t2 with hlt | hge
    · exact Or.inl (hGate k t1 t2 hk hlt h2)
    · exact Or.inr (hGate k t2 t1 hk (by omega) h1)
  have compAdj : ∀ i t1 t2, i < n → t1 < b → t2 < b → t1 ≠ t2 →
      GAdj G (gateBound n gs + i * b + t1) (gateBound n gs + i * b + t2) := by
    intro i t1 t2 hi h1 h2 hne
    rcases Nat.lt_or_ge t1 t2 with hlt | hge
    · exact Or.inl (hComp i t1 t2 hi hlt h2)
    · exact Or.inr (hComp i t2 t1 hi (by omega) h1)
  have comp_to_first : ∀ i t, i < n → t < b →
      Reach G (gateBound n gs + i * b + t) (gateBound n gs + i * b) := by
    intro i t hi ht
    rcases Nat.eq_zero_or_pos t with rfl | hpos
    · rw [Nat.add_zero]
      exact Relation.ReflTransGen.refl
    · have hedge := hComp i 0 t hi hpos ht
      rw [Nat.add_zero] at hedge
      exact Relation.ReflTransGen.single (Or.inr hedge)
  have first_to_hub : ∀ i, i < n →
      Reach G (gateBound n gs + i * b) (gateBound n gs) := by
    intro i hi
    rcases Nat.eq_zero_or_pos i with rfl | hpos
    · rw [Nat.zero_mul, Nat.add_zero]
      exact Relation.ReflTransGen.refl
    · obtain ⟨k, hk0, hkN, hsub⟩ :=
        crossLoop_pairs n b gs n 0 0 0 i (le_refl 0) hpos (by omega)
      have hkn : k < numGates n := by omega
      have he1 : (k * gs + gs / 2 + 0, gateBound n gs + i * b + 0) ∈ E G := by
        apply hCross
        apply hsub
        rw [mem_crossPair]
        exact Or.inr ⟨0, by omega, rfl⟩
      have he2 : (k * gs + 0, gateBound n gs + 0 * b + 0) ∈ E G := by
        apply hCross
        apply hsub
        rw [mem_crossPair]
        exact Or.inl ⟨0, by omega, rfl⟩
      simp only [Nat.add_zero, Nat.zero_mul] at he1 he2
      have he3 := hGate k 0 (gs / 2) hkn (by omega) (by omega)
      simp only [Nat.add_zero] at he3
      have r1 : Reach G (gateBound n gs + i * b) (k * gs + gs / 2) :=
        Relation.ReflTransGen.single (Or.inr he1)
      have r2 : Reach G (k * gs + gs / 2) (k * gs) :=
        Relation.ReflTransGen.single (Or.inr he3)
      have r3 : Reach G (k * gs) (gateBound n gs) :=
        Relation.ReflTransGen.single (Or.inl he2)
      exact r1.trans (r2.trans r3)
  have gate_to_hub : ∀ k t, k < numGates n → t < gs →
      Reach G (k * gs + t) (gateBound n gs) := by
    intro k t hk ht
    obtain ⟨i', j', hi1, hi2, hi3, hsub⟩ :=
      crossLoop_gates n b gs n 0 0 k (by omega) (by omega)
    by_cases hcase : t < gs / 2
    · have he : (k * gs + t, gateBound n gs + i' * b + t) ∈ E G := by
        apply hCross
        apply hsub
        rw [mem_crossPair]
        exact Or.inl ⟨t, hcase, rfl⟩
      have r1 : Reach G (k * gs + t) (gateBound n gs + i' * b + t) :=
        Relation.ReflTransGen.single (Or.inl he)
      exact r1.trans ((comp_to_first i' t (by omega) (by omega)).trans
        (first_to_hub i' (by omega)))
    · have ht2 : t - gs / 2 < gs - gs / 2 := by omega
      have he : (k * gs + gs / 2 + (t - gs / 2),
          gateBound n gs + j' * b + (t - gs / 2)) ∈ E G := by
        apply hCross
        apply hsub
        rw [mem_crossPair]
        exact Or.inr ⟨t - gs / 2, ht2, rfl⟩
      rw [show k * gs + gs / 2 + (t - gs / 2) = k * gs + t by omega] at he
      have r1 : Reach G (k * gs + t) (gateBound n gs + j' * b + (t - gs / 2)) :=
        Relation.ReflTransGen.single (Or.inl he)
      exact r1.trans ((comp_to_first j' (t - gs / 2) (by omega) (by omega)).trans
        (first_to_hub j' (by omega)))
  have all_to_hub : ∀ x, x ∈ V G → Reach G x (gateBound n gs) := by
    intro x hx
    rw [hV, Finset.mem_range] at hx
    by_cases hcase : x < numGates n * gs
    · obtain ⟨k, hk, t, ht, rfl⟩ := (block_decomp (numGates n) gs x hgs0).2 hcase
      exact gate_to_hub k t hk ht
    · have hx2 : x - numGates n * gs < n * b := by unfold totalIds at hx; omega
      obtain ⟨i, hi, t, ht, hxe⟩ := (block_decomp n b _ hb0).2 hx2
      have hxeq : x = gateBound n gs + i * b + t := by unfold gateBound; omega
      rw [hxeq]
      exact (comp_to_first i t hi ht).trans (first_to_hub i hi)
  refine ⟨hV, gateAdj, compAdj, ⟨gateBound n gs, ?_⟩, ?_⟩
  · rw [hV, Finset.mem_range]
    have : 0 < n * b := Nat.mul_pos (by omega) (by omega)
    unfold totalIds gateBound
    omega
  · intro u hu v hv
    exact (all_to_hub u hu).trans
      (Relation.ReflTransGen.symmetric (GAdj_symm G) (all_to_hub v hv))

/-- Claim C1: for all num_big_components at least 2, big_component_size at
least 1, and even gate_size at least 2 with gate_size/2 at most
big_component_size, the composer produces a single connected graph with
C(num_big_components, 2) gates and num_big_components big components, each
internally a complete graph on gate_size (resp. big_component_size) nodes:
gate k occupies ids [k*gs, (k+1)*gs) and is a clique, big component i
occupies the ids [C(n,2)*gs + i*b, C(n,2)*gs + (i+1)*b) and is a clique, and
the whole graph is one connected component. -/
theorem C1_clique_gate_structure (n b gs : ℕ) (hn : 2 ≤ n) (hb : 1 ≤ b)
    (hgs : 2 ≤ gs) (heven : gs % 2 = 0) (hhalf : gs / 2 ≤ b) :
    ∃ G, make_complete_clique_gate_graph n b gs = some G ∧
      numGates n = n.choose 2 ∧
      V G = Finset.range (n.choose 2 * gs + n * b) ∧
      (∀ k t1 t2, k < n.choose 2 → t1 < gs → t2 < gs → t1 ≠ t2 →
        GAdj G (k * gs + t1) (k * gs + t2)) ∧
      (∀ i t1 t2, i < n → t1 < b → t2 < b → t1 ≠ t2 →
        GAdj G (n.choose 2 * gs + i * b + t1) (n.choose 2 * gs + i * b + t2)) ∧
      OneComponent G := by
  have hng := numGates_choose n
  obtain ⟨G, hG⟩ := make_isSome n b gs (by omega) (by omega) hhalf (by omega)
  obtain ⟨hV, hgateAdj, hcompAdj, hone⟩ :=
    clique_gate_facts n b gs hn hb hgs hhalf (by omega) G hG
  refine ⟨G, hG, hng, ?_, ?_, ?_, hone⟩
  · rw [hV]
    unfold totalIds
    rw [hng]
  · rw [← hng]
    exact hgateAdj
  · rw [← hng]
    intro i t1 t2 hi h1 h2 hne
    have := hcompAdj i t1 t2 hi h1 h2 hne
    unfold gateBound at this
    exact this

set_option maxRecDepth 100000 in
/-- Witness for C1 at the worked example (2, 3, 2). -/
theorem C1_witness :
    ∃ G, make_complete_clique_gate_graph 2 3 2 = some G ∧
      numGates 2 = Nat.choose 2 2 ∧
      V G = Finset.range (Nat.choose 2 2 * 2 + 2 * 3) ∧
      (∀ k t1 t2, k < Nat.choose 2 2 → t1 < 2 → t2 < 2 → t1 ≠ t2 →
        GAdj G (k * 2 + t1) (k * 2 + t2)) ∧
      (∀ i t1 t2, i < 2 → t1 < 3 → t2 < 3 → t1 ≠ t2 →
        GAdj G (Nat.choose 2 2 * 2 + i * 3 + t1) (Nat.choose 2 2 * 2 + i * 3 + t2)) ∧
      OneComponent G :=
  C1_clique_gate_structure 2 3 2 (by norm_num) (by norm_num) (by norm_num)
    (by norm_num) (by norm_num)

theorem two_le_of_numGates_pos {n : ℕ} (h : 0 < numGates n) : 2 ≤ n := by
  rcases n with _ | _ | n
  · simp [numGates] at h
  · exact absurd h (by decide)
  · omega

theorem block_mem_unique {s x k1 k2 : ℕ} (h1a : k1 * s ≤ x) (h1b : x < k1 * s + s)
    (h2a : k2 * s ≤ x) (h2b : x < k2 * s + s) : k1 = k2 :=
  (@block_decomp_unique k1 (x - k1 * s) k2 (x - k2 * s) s
    (by omega) (by omega) (by omega)).1

/-- Claim C10: in every graph the composer produces, every edge lies inside
one gate, inside one big component, or joins a gate node to a big-component
node; no edge joins two distinct gates, no edge joins two distinct big
components, and each gate node has exactly one edge leaving its own gate. -/
theorem C10_edge_classification (n b gs : ℕ) (G : Graph)
    (h : make_complete_clique_gate_graph n b gs = some G) :
    (∀ p ∈ E G, InGate n b gs p ∨ InComp n b gs p ∨
      (∃ k o i t, k < numGates n ∧ o < gs ∧ i < n ∧ t < b ∧
        p = (k * gs + o, gateBound n gs + i * b + t))) ∧
    (∀ p ∈ E G, ∀ k1 k2, k1 < numGates n → k2 < numGates n →
      k1 * gs ≤ p.1 → p.1 < k1 * gs + gs → k2 * gs ≤ p.2 → p.2 < k2 * gs + gs →
      k1 = k2) ∧
    (∀ p ∈ E G, ∀ i1 i2, i1 < n → i2 < n →
      gateBound n gs + i1 * b ≤ p.1 → p.1 < gateBound n gs + i1 * b + b →
      gateBound n gs + i2 * b ≤ p.2 → p.2 < gateBound n gs + i2 * b + b →
      i1 = i2) ∧
    (∀ k o, k < numGates n → o < gs →
      ∃! q, q ∈ E G ∧ q.1 = k * gs + o ∧
        ¬ (k * gs ≤ q.2 ∧ q.2 < k * gs + gs)) := by
  obtain ⟨hgs0, hb0, hV, hE, hhalves⟩ := make_some_spec n b gs G h
  have crossShape : ∀ p ∈ crossLoopList n b gs 0 0 n,
      ∃ k o i t, k < numGates n ∧ o < gs ∧ i < n ∧ t < b ∧
        p = (k * gs + o, gateBound n gs + i * b + t) := by
    intro p hp
    obtain ⟨k', i', j', _, hk2, _, hij, hjn, hpair⟩ := crossLoop_shape n b gs n 0 0 p hp
    have hn2 : 2 ≤ n := two_le_of_numGates_pos (by omega)
    obtain ⟨hh1, hh2⟩ := hhalves hn2
    rcases mem_crossPair.1 hpair with ⟨t, ht, rfl⟩ | ⟨t, ht, rfl⟩
    · exact ⟨k', t, i', t, by omega, by omega, by omega, by omega, rfl⟩
    · have g1 : k' < numGates n := by omega
      have g2 : gs / 2 + t < gs := by omega
      have g3 : j' < n := by omega
      have g4 : t < b := by omega
      have g5 : (k' * gs + gs / 2 + t, gateBound n gs + j' * b + t) =
          (k' * gs + (gs / 2 + t), gateBound n gs + j' * b + t) := by
        rw [Nat.add_assoc]
      exact ⟨k', gs / 2 + t, j', t, g1, g2, g3, g4, g5⟩
  refine ⟨?_, ?_, ?_, ?_⟩
  · intro p hp
    rcases (hE p).1 hp with h1 | h2 | h3
    · exact Or.inl h1
    · exact Or.inr (Or.inl h2)
    · exact Or.inr (Or.inr (crossShape p h3))
  · intro p hp k1 k2 hk1 hk2 ha1 hb1 ha2 hb2
    rcases (hE p).1 hp with hg | hc | hx
    · obtain ⟨k0, hk0, t1, t2, h12, h2, rfl⟩ := hg
      dsimp only at ha1 hb1 ha2 hb2
      have e1 : k1 = k0 := block_mem_unique ha1 hb1 (by omega) (by omega)
      have e2 : k2 = k0 := block_mem_unique ha2 hb2 (by omega) (by omega)
      omega
    · obtain ⟨i0, hi0, t1, t2, h12, h2, rfl⟩ := hc
      dsimp only at ha1 hb1
      have := gate_block_le gs hk1
      unfold gateBound at ha1 hb1
      omega
    · obtain ⟨k0, o0, i0, t0, hk0, ho0, hi0, ht0, rfl⟩ := crossShape p hx
      dsimp only at ha2 hb2
      have := gate_block_le gs hk2
      unfold gateBound at ha2 hb2
      omega
  · intro p hp i1 i2 hi1 hi2 ha1 hb1 ha2 hb2
    rcases (hE p).1 hp with hg | hc | hx
    · obtain ⟨k0, hk0, t1, t2, h12, h2, rfl⟩ := hg
      dsimp only at ha1 hb1
      have := gate_block_le gs hk0
      unfold gateBound at ha1 hb1
      omega
    · obtain ⟨i0, hi0, t1, t2, h12, h2, rfl⟩ := hc
      dsimp only at ha1 hb1 ha2 hb2
      have e1 : i1 = i0 := block_mem_unique (s := b) (x := i0 * b + t1) (by omega)
        (by omega) (by omega) (by omega)
      have e2 : i2 = i0 := block_mem_unique (s := b) (x := i0 * b + t2) (by omega)
        (by omega) (by omega) (by omega)
      omega
    · obtain ⟨k0, o0, i0, t0, hk0, ho0, hi0, ht0, rfl⟩ := crossShape p hx
      dsimp only at ha1 hb1
      have := gate_block_le gs hk0
      unfold gateBound at ha1 hb1
      omega
  · intro k o hk ho
    have hn2 : 2 ≤ n := two_le_of_numGates_pos (by omega)
    obtain ⟨hh1, hh2⟩ := hhalves hn2
    obtain ⟨i', j', hi1, hij, hjn, hsub⟩ :=
      crossLoop_gates n b gs n 0 0 k (by omega) (by omega)
    have hedge : ∃ q0, q0 ∈ crossPair n b gs k i' j' ∧ q0.1 = k * gs + o := by
      by_cases hcase : o < gs / 2
      · exact ⟨(k * gs + o, gateBound n gs + i' * b + o),
          mem_crossPair.2 (Or.inl ⟨o, hcase, rfl⟩), rfl⟩
      · refine ⟨(k * gs + gs / 2 + (o - gs / 2), gateBound n gs + j' * b + (o - gs / 2)),
          mem_crossPair.2 (Or.inr ⟨o - gs / 2, by omega, rfl⟩), ?_⟩
        show k * gs + gs / 2 + (o - gs / 2) = k * gs + o
        omega
    obtain ⟨q0, hq0pair, hq0fst⟩ := hedge
    have hq0cross : q0 ∈ crossLoopList n b gs 0 0 n := hsub q0 hq0pair
    have hq0E : q0 ∈ E G := (hE q0).2 (Or.inr (Or.inr hq0cross))
    have hq0snd : gateBound n gs ≤ q0.2 := crossPair_snd hq0pair
    have hgb := gate_block_le gs hk
    have hq0leave : ¬ (k * gs ≤ q0.2 ∧ q0.2 < k * gs + gs) := by
      rintro ⟨-, hlt⟩
      unfold gateBound at hq0snd
      omega
    refine ⟨q0, ⟨hq0E, hq0fst, hq0leave⟩, ?_⟩
    rintro q ⟨hqE, hqfst, hqleave⟩
    rcases (hE q).1 hqE with hg | hc | hx
    · obtain ⟨k2, hk2, t1, t2, h12, h2, rfl⟩ := hg
      dsimp only at hqfst hqleave
      obtain ⟨rfl, rfl⟩ : k2 = k ∧ t1 = o :=
        block_decomp_unique (by omega) ho hqfst
      exact absurd ⟨by omega, by omega⟩ hqleave
    · obtain ⟨i0, hi0, t1, t2, h12, h2, rfl⟩ := hc
      dsimp only at hqfst
      unfold gateBound at hqfst
      omega
    · exact crossLoop_fst_inj n b gs hgs0 n 0 0 q q0 hx hq0cross
        (by rw [hqfst, hq0fst])

set_option maxRecDepth 100000 in
/-- Witness for C10 at the worked example (2, 3, 2). -/
theorem C10_witness :
    make_complete_clique_gate_graph 2 3 2 = some demoG ∧
    ((∀ p ∈ E demoG, InGate 2 3 2 p ∨ InComp 2 3 2 p ∨
      (∃ k o i t, k < numGates 2 ∧ o < 2 ∧ i < 2 ∧ t < 3 ∧
        p = (k * 2 + o, gateBound 2 2 + i * 3 + t))) ∧
    (∀ p ∈ E demoG, ∀ k1 k2, k1 < numGates 2 → k2 < numGates 2 →
      k1 * 2 ≤ p.1 → p.1 < k1 * 2 + 2 → k2 * 2 ≤ p.2 → p.2 < k2 * 2 + 2 →
      k1 = k2) ∧
    (∀ p ∈ E demoG, ∀ i1 i2, i1 < 2 → i2 < 2 →
      gateBound 2 2 + i1 * 3 ≤ p.1 → p.1 < gateBound 2 2 + i1 * 3 + 3 →
      gateBound 2 2 + i2 * 3 ≤ p.2 → p.2 < gateBound 2 2 + i2 * 3 + 3 →
      i1 = i2) ∧
    (∀ k o, k < numGates 2 → o < 2 →
      ∃! q, q ∈ E demoG ∧ q.1 = k * 2 + o ∧
        ¬ (k * 2 ≤ q.2 ∧ q.2 < k * 2 + 2))) :=
  ⟨by decide, C10_edge_classification 2 3 2 demoG (by decide)⟩

/-!
## output_graph (networkgen.py lines 78-104)

The serializer prints the node count, one line per edge under a dense
remapping built in edge-traversal order, a blank line, then one layout line
per node of the graph (nx.kamada_kawai_layout returns a coordinate for every
node, iterated in node order; the coordinates themselves are external
floating point data, so a layout line is represented by the remapped id
together with the node whose coordinates are printed).  Looking up a node
that never occurred in an edge raises KeyError in the layout loop, modelled
as Except.error.
-/

inductive OutLine
  | count (n : ℕ)
  | edge (a c : ℕ)
  | blank
  | pos (sid node : ℕ)
  deriving DecidableEq, Repr

/-- Handling of the first endpoint of one edge: if n0 not in node_to_id,
assign it current_id and bump the counter. -/
def stepFst (e : ℕ × ℕ) (st : List (ℕ × ℕ) × ℕ) : List (ℕ × ℕ) × ℕ :=
  if (st.1.lookup e.1).isSome then st else (st.1 ++ [(e.1, st.2)], st.2 + 1)

/-- Handling of the second endpoint of one edge. -/
def stepSnd (e : ℕ × ℕ) (st : List (ℕ × ℕ) × ℕ) : List (ℕ × ℕ) × ℕ :=
  if (st.1.lookup e.2).isSome then st else (st.1 ++ [(e.2, st.2)], st.2 + 1)

/-- The edge line printed for e once both endpoints are in the map (the
getD default is never used: both lookups were just ensured). -/
def edgeLine (e : ℕ × ℕ) (st : List (ℕ × ℕ) × ℕ) : OutLine :=
  OutLine.edge ((st.1.lookup e.1).getD 0) ((st.1.lookup e.2).getD 0)

/-- The for e in G.edges loop of output_graph: build node_to_id and print
the remapped edges. -/
def edgePass : List (ℕ × ℕ) → List (ℕ × ℕ) × ℕ → List OutLine →
    (List (ℕ × ℕ) × ℕ) × List OutLine
  | [], st, ls => (st, ls)
  | e :: es, st, ls =>
    edgePass es (stepSnd e (stepFst e st))
      (ls ++ [edgeLine e (stepSnd e (stepFst e st))])

/-- The node_to_id mapping that output_graph builds for an edge list. -/
def node_to_id (es : List (ℕ × ℕ)) : List (ℕ × ℕ) := (edgePass es ([], 0) []).1.1

/-- The layout loop: print node_to_id[node] for every node in layout order;
a node missing from node_to_id raises KeyError. -/
def layoutPass (m : List (ℕ × ℕ)) : List ℕ → Except Unit (List OutLine)
  | [] => Except.ok []
  | u :: us =>
    match m.lookup u with
    | none => Except.error ()
    | some i =>
      match layoutPass m us with
      | Except.error e => Except.error e
      | Except.ok ls => Except.ok (OutLine.pos i u :: ls)

/-- output_graph from networkgen.py. -/
def output_graph (g : Graph) : Except Unit (List OutLine) :=
  match layoutPass (edgePass g.edges ([], 0) []).1.1 g.nodes with
  | Except.error e => Except.error e
  | Except.ok posLines =>
    Except.ok (OutLine.count g.nodes.length :: (edgePass g.edges ([], 0) []).2 ++
      [OutLine.blank] ++ posLines ++ [OutLine.blank])

/-- Keep the first occurrence of each value, in traversal order, skipping
values already seen. -/
def firstOccurFrom (seen : List ℕ) : List ℕ → List ℕ
  | [] => []
  | x :: xs =>
    if x ∈ seen then firstOccurFrom seen xs else x :: firstOccurFrom (seen ++ [x]) xs

theorem lookup_isSome_iff : ∀ (l : List (ℕ × ℕ)) (a : ℕ),
    (l.lookup a).isSome ↔ a ∈ l.map Prod.fst := by
  intro l
  induction l with
  | nil => intro a; simp
  | cons p rest ih =>
    intro a
    obtain ⟨k, v⟩ := p
    by_cases h : a = k
    · subst h
      simp [List.lookup]
    · have hskip : List.lookup a ((k, v) :: rest) = List.lookup a rest := by
        simp only [List.lookup]
        rw [show (a == k) = false from beq_eq_false_iff_ne.2 h]
      rw [hskip]
      simp only [List.map_cons, List.mem_cons, ih]
      tauto

theorem mem_firstOccurFrom : ∀ (l seen : List ℕ) (x : ℕ),
    x ∈ firstOccurFrom seen l ↔ x ∈ l ∧ x ∉ seen := by
  intro l
  induction l with
  | nil => intro seen x; simp [firstOccurFrom]
  | cons y ys ih =>
    intro seen x
    rw [show firstOccurFrom seen (y :: ys) =
      if y ∈ seen then firstOccurFrom seen ys
      else y :: firstOccurFrom (seen ++ [y]) ys from rfl]
    by_cases h : y ∈ seen
    · rw [if_pos h, ih]
      simp only [List.mem_cons]
      constructor
      · rintro ⟨hx, hs⟩; exact ⟨Or.inr hx, hs⟩
      · rintro ⟨hx | hx, hs⟩
        · subst hx; exact absurd h hs
        · exact ⟨hx, hs⟩
    · rw [if_neg h]
      simp only [List.mem_cons, ih, List.mem_append, List.mem_singleton]
      constructor
      · rintro (rfl | ⟨hx, hs⟩)
        · exact ⟨Or.inl rfl, h⟩
        · exact ⟨Or.inr hx, fun hc => hs (Or.inl hc)⟩
      · rintro ⟨rfl | hx, hs⟩
        · exact Or.inl rfl
        · by_cases hxy : x = y
          · exact Or.inl hxy
          · exact Or.inr ⟨hx, by tauto⟩

theorem edgePass_spec :
    ∀ (es : List (ℕ × ℕ)) (m : List (ℕ × ℕ)) (cid : ℕ) (ls : List OutLine),
      m.map Prod.snd = List.range cid →
      (edgePass es (m, cid) ls).1.1.map Prod.snd =
        List.range (edgePass es (m, cid) ls).1.2 ∧
      (edgePass es (m, cid) ls).1.1.map Prod.fst =
        m.map Prod.fst ++
          firstOccurFrom (m.map Prod.fst) (es.flatMap fun e => [e.1, e.2]) := by
  intro es
  induction es with
  | nil => intro m cid ls h; simpa [edgePass, firstOccurFrom] using h
  | cons e es ih =>
    intro m cid ls h
    rw [show edgePass (e :: es) (m, cid) ls =
      edgePass es (stepSnd e (stepFst e (m, cid)))
        (ls ++ [edgeLine e (stepSnd e (stepFst e (m, cid)))]) from rfl]
    rw [show (e :: es).flatMap (fun e => [e.1, e.2]) =
      e.1 :: e.2 :: es.flatMap (fun e => [e.1, e.2]) from rfl]
    have hmem1 : ((m.lookup e.1).isSome) ↔ e.1 ∈ m.map Prod.fst := lookup_isSome_iff m e.1
    unfold stepFst
    by_cases h1 : (m.lookup e.1).isSome
    · rw [if_pos h1]
      unfold stepSnd
      by_cases h2 : (m.lookup e.2).isSome
      · rw [if_pos h2]
        obtain ⟨hA, hB⟩ := ih m cid _ h
        refine ⟨hA, ?_⟩
        rw [hB]
        rw [show firstOccurFrom (m.map Prod.fst)
            (e.1 :: e.2 :: es.flatMap fun e => [e.1, e.2]) =
          firstOccurFrom (m.map Prod.fst) (e.2 :: es.flatMap fun e => [e.1, e.2])
          from by rw [firstOccurFrom, if_pos (hmem1.1 h1)]]
        rw [show firstOccurFrom (m.map Prod.fst) (e.2 :: es.flatMap fun e => [e.1, e.2]) =
          firstOccurFrom (m.map Prod.fst) (es.flatMap fun e => [e.1, e.2])
          from by rw [firstOccurFrom, if_pos ((lookup_isSome_iff m e.2).1 h2)]]
      · rw [if_neg h2]
        have hsnd : (m ++ [(e.2, cid)]).map Prod.snd = List.range (cid + 1) := by
          rw [List.map_append, h, List.range_succ]
          rfl
        obtain ⟨hA, hB⟩ := ih (m ++ [(e.2, cid)]) (cid + 1) _ hsnd
        refine ⟨hA, ?_⟩
        rw [hB, List.map_append]
        rw [show firstOccurFrom (m.map Prod.fst)
            (e.1 :: e.2 :: es.flatMap fun e => [e.1, e.2]) =
          firstOccurFrom (m.map Prod.fst) (e.2 :: es.flatMap fun e => [e.1, e.2])
          from by rw [firstOccurFrom, if_pos (hmem1.1 h1)]]
        rw [show firstOccurFrom (m.map Prod.fst) (e.2 :: es.flatMap fun e => [e.1, e.2]) =
          e.2 :: firstOccurFrom (m.map Prod.fst ++ [e.2]) (es.flatMap fun e => [e.1, e.2])
          from by
            rw [firstOccurFrom,
              if_neg (fun hc => h2 ((lookup_isSome_iff m e.2).2 hc))]]
        simp
    · rw [if_neg h1]
      have hsnd1 : (m ++ [(e.1, cid)]).map Prod.snd = List.range (cid + 1) := by
        rw [List.map_append, h, List.range_succ]
        rfl
      have hkeys1 : (m ++ [(e.1, cid)]).map Prod.fst = m.map Prod.fst ++ [e.1] := by
        rw [List.map_append]; rfl
      unfold stepSnd
      by_cases h2 : ((m ++ [(e.1, cid)]).lookup e.2).isSome
      · rw [if_pos h2]
        obtain ⟨hA, hB⟩ := ih (m ++ [(e.1, cid)]) (cid + 1) _ hsnd1
        refine ⟨hA, ?_⟩
        rw [hB, hkeys1]
        rw [show firstOccurFrom (m.map Prod.fst)
            (e.1 :: e.2 :: es.flatMap fun e => [e.1, e.2]) =
          e.1 :: firstOccurFrom (m.map Prod.fst ++ [e.1])
            (e.2 :: es.flatMap fun e => [e.1, e.2]) from by
          rw [firstOccurFrom, if_neg (fun hc => h1 (hmem1.2 hc))]]
        rw [show firstOccurFrom (m.map Prod.fst ++ [e.1])
            (e.2 :: es.flatMap fun e => [e.1, e.2]) =
          firstOccurFrom (m.map Prod.fst ++ [e.1]) (es.flatMap fun e => [e.1, e.2])
          from by
            rw [firstOccurFrom, if_pos]
            have := (lookup_isSome_iff (m ++ [(e.1, cid)]) e.2).1 h2
            rwa [hkeys1] at this]
        simp
      · rw [if_neg h2]
        have hsnd2 : ((m ++ [(e.1, cid)]) ++ [(e.2, cid + 1)]).map Prod.snd =
            List.range (cid + 2) := by
          rw [List.map_append, hsnd1,
            show List.range (cid + 2) = List.range (cid + 1) ++ [cid + 1]
              from List.range_succ (cid + 1)]
          rfl
        have hkeys2 : ((m ++ [(e.1, cid)]) ++ [(e.2, cid + 1)]).map Prod.fst =
            m.map Prod.fst ++ [e.1] ++ [e.2] := by
          rw [List.map_append, hkeys1]
          rfl
        obtain ⟨hA, hB⟩ := ih ((m ++ [(e.1, cid)]) ++ [(e.2, cid + 1)]) (cid + 2) _ hsnd2
        refine ⟨hA, ?_⟩
        rw [hB, hkeys2]
        rw [show firstOccurFrom (m.map Prod.fst)
            (e.1 :: e.2 :: es.flatMap fun e => [e.1, e.2]) =
          e.1 :: firstOccurFrom (m.map Prod.fst ++ [e.1])
            (e.2 :: es.flatMap fun e => [e.1, e.2]) from by
          rw [firstOccurFrom, if_neg (fun hc => h1 (hmem1.2 hc))]]
        rw [show firstOccurFrom (m.map Prod.fst ++ [e.1])
            (e.2 :: es.flatMap fun e => [e.1, e.2]) =
          e.2 :: firstOccurFrom (m.map Prod.fst ++ [e.1] ++ [e.2])
            (es.flatMap fun e => [e.1, e.2]) from by
          rw [firstOccurFrom, if_neg]
          intro hc
          apply h2
          rw [lookup_isSome_iff, hkeys1]
          exact hc]
        simp

theorem layoutPass_ok :
    ∀ (ns : List ℕ) (m : List (ℕ × ℕ)), (∀ u ∈ ns, (m.lookup u).isSome) →
      ∃ ls, layoutPass m ns = Except.ok ls := by
  intro ns
  induction ns with
  | nil => intro m _; exact ⟨[], rfl⟩
  | cons u us ih =>
    intro m h
    have hu := h u (List.mem_cons_self u us)
    obtain ⟨i, hi⟩ := Option.isSome_iff_exists.1 hu
    obtain ⟨ls, hls⟩ := ih m (fun v hv => h v (List.mem_cons_of_mem u hv))
    refine ⟨OutLine.pos i u :: ls, ?_⟩
    rw [show layoutPass m (u :: us) =
      (match m.lookup u with
      | none => Except.error ()
      | some i =>
        match layoutPass m us with
        | Except.error e => Except.error e
        | Except.ok ls => Except.ok (OutLine.pos i u :: ls)) from rfl, hi, hls]

theorem layoutPass_error :
    ∀ (ns : List ℕ) (m : List (ℕ × ℕ)), (∃ u ∈ ns, ¬ (m.lookup u).isSome) →
      layoutPass m ns = Except.error () := by
  intro ns
  induction ns with
  | nil => rintro m ⟨u, hu, -⟩; simp at hu
  | cons u us ih =>
    rintro m ⟨v, hv, hnone⟩
    rw [show layoutPass m (u :: us) =
      (match m.lookup u with
      | none => Except.error ()
      | some i =>
        match layoutPass m us with
        | Except.error e => Except.error e
        | Except.ok ls => Except.ok (OutLine.pos i u :: ls)) from rfl]
    rcases List.mem_cons.1 hv with rfl | hvs
    · rw [Option.not_isSome_iff_eq_none.1 hnone]
    · cases hu : m.lookup u with
      | none => rfl
      | some i => rw [ih m ⟨v, hvs, hnone⟩]

/-- Counterexample to claim C5: on a graph with an isolated node the layout
loop of output_graph hits a key that the edge-built remapping never
assigned, and the function raises (KeyError) instead of silently dropping
the node: here node 2 is in the graph but on no edge. -/
theorem C5_counterexample :
    node_to_id [(0, 1)] = [(0, 0), (1, 1)] ∧
    output_graph ⟨[0, 1, 2], [(0, 1)]⟩ = Except.error () := ⟨rfl, rfl⟩

/-- Claim C5, amended: output_graph assigns dense ids 0, 1, ... in the order
nodes are first encountered while traversing the edge list (not node-set
order), and nodes on no edge are dropped from the remapping; but the
function only completes without error when every node of the graph lies on
some edge - if any node is isolated, the layout loop raises a lookup error
(KeyError) instead of silently omitting it. -/
theorem C5_serializer_amended (g : Graph) :
    ((node_to_id g.edges).map Prod.snd = List.range (node_to_id g.edges).length) ∧
    ((node_to_id g.edges).map Prod.fst =
      firstOccurFrom [] (g.edges.flatMap fun e => [e.1, e.2])) ∧
    (∀ u, ((node_to_id g.edges).lookup u).isSome ↔
      ∃ e ∈ g.edges, u = e.1 ∨ u = e.2) ∧
    ((∀ u ∈ g.nodes, ∃ e ∈ g.edges, u = e.1 ∨ u = e.2) →
      ∃ ls, output_graph g = Except.ok ls) ∧
    ((∃ u ∈ g.nodes, ¬ ∃ e ∈ g.edges, u = e.1 ∨ u = e.2) →
      output_graph g = Except.error ()) := by
  obtain ⟨hsnd, hfst⟩ := edgePass_spec g.edges [] 0 [] (by simp)
  have hcid : (node_to_id g.edges).length = (edgePass g.edges ([], 0) []).1.2 := by
    have := congrArg List.length hsnd
    simpa [node_to_id] using this
  have c1 : (node_to_id g.edges).map Prod.snd =
      List.range (node_to_id g.edges).length := by
    rw [hcid]
    exact hsnd
  have c2 : (node_to_id g.edges).map Prod.fst =
      firstOccurFrom [] (g.edges.flatMap fun e => [e.1, e.2]) := by
    unfold node_to_id
    rw [hfst]
    rfl
  have c3 : ∀ u, ((node_to_id g.edges).lookup u).isSome ↔
      ∃ e ∈ g.edges, u = e.1 ∨ u = e.2 := by
    intro u
    rw [lookup_isSome_iff, c2, mem_firstOccurFrom]
    simp only [List.mem_flatMap, List.mem_cons, List.mem_singleton,
      List.not_mem_nil, not_false_iff, and_true]
    constructor
    · rintro ⟨e, he, rfl | (rfl | hc)⟩
      · exact ⟨e, he, Or.inl rfl⟩
      · exact ⟨e, he, Or.inr rfl⟩
      · simp at hc
    · rintro ⟨e, he, rfl | rfl⟩
      · exact ⟨e, he, Or.inl rfl⟩
      · exact ⟨e, he, Or.inr (Or.inl rfl)⟩
  refine ⟨c1, c2, c3, ?_, ?_⟩
  · intro h
    obtain ⟨ls, hls⟩ := layoutPass_ok g.nodes (node_to_id g.edges)
      (fun u hu => (c3 u).2 (h u hu))
    unfold output_graph
    rw [show (edgePass g.edges ([], 0) []).1.1 = node_to_id g.edges from rfl, hls]
    exact ⟨_, rfl⟩
  · rintro ⟨u, hu, hiso⟩
    have herr := layoutPass_error g.nodes (node_to_id g.edges)
      ⟨u, hu, fun hc => hiso ((c3 u).1 hc)⟩
    unfold output_graph
    rw [show (edgePass g.edges ([], 0) []).1.1 = node_to_id g.edges from rfl, herr]

/-- Witness for the amended serializer claim on a two-node path graph. -/
theorem C5_witness :
    ((node_to_id [(0, 1)]).map Prod.snd = List.range (node_to_id [(0, 1)]).length) ∧
    ((node_to_id [(0, 1)]).map Prod.fst =
      firstOccurFrom [] ([(0, 1)].flatMap fun e : ℕ × ℕ => [e.1, e.2])) ∧
    (∀ u, ((node_to_id [(0, 1)]).lookup u).isSome ↔
      ∃ e ∈ [((0 : ℕ), (1 : ℕ))], u = e.1 ∨ u = e.2) ∧
    ((∀ u ∈ [0, 1], ∃ e ∈ [((0 : ℕ), (1 : ℕ))], u = e.1 ∨ u = e.2) →
      ∃ ls, output_graph ⟨[0, 1], [(0, 1)]⟩ = Except.ok ls) ∧
    ((∃ u ∈ [0, 1], ¬ ∃ e ∈ [((0 : ℕ), (1 : ℕ))], u = e.1 ∨ u = e.2) →
      output_graph ⟨[0, 1], [(0, 1)]⟩ = Except.error ()) :=
  C5_serializer_amended ⟨[0, 1], [(0, 1)]⟩

/-!
## main (networkgen.py lines 11-24)
-/

/-- The result of the Composer entry point: it prints the usage message and
returns, crashes with an uncaught exception (bad index, failed int(), or an
exception from the graph build or serialization), or runs to completion
having produced a graph and its serialized output (the drawing calls are
external side effects with no returned data). -/
inductive MainResult
  | usage
  | crash
  | ran (g : Graph) (out : List OutLine)
  deriving DecidableEq, Repr

/-- Python int() on the canonical decimal strings exercised here: a
nonempty all-digit string parses to the number it denotes, anything else
raises ValueError (none).  (int() also accepts signs and surrounding
whitespace, which no claim exercises.) -/
def parseInt (s : String) : Option ℕ :=
  if s.data ≠ [] ∧ ∀ c ∈ s.data, c.isDigit
  then some (s.data.foldl (fun acc c => acc * 10 + (c.toNat - 48)) 0)
  else none

/-- main from networkgen.py: print usage when len(argv) < 3, otherwise read
int(argv[1]), int(argv[2]), int(argv[3]) (an absent argv[3] raises
IndexError), build the clique-gate graph and serialize it. -/
def main (argv : List String) : MainResult :=
  if argv.length < 3 then MainResult.usage
  else
    match (argv.get? 1).bind parseInt, (argv.get? 2).bind parseInt,
        (argv.get? 3).bind parseInt with
    | some n1, some n2, some n3 =>
      match make_complete_clique_gate_graph n1 n2 n3 with
      | none => MainResult.crash
      | some g =>
        match output_graph g with
        | Except.error _ => MainResult.crash
        | Except.ok ls => MainResult.ran g ls
    | _, _, _ => MainResult.crash

/-- Counterexample to claim C6: an argument vector with exactly two
arguments after the program name passes the len(argv) < 3 check and then
crashes reading argv[3], instead of printing usage. -/
theorem C6_counterexample : main ["prog", "2", "3"] = MainResult.crash := by decide

/-- Claim C6, amended: main prints the usage message and returns silently
only when fewer than two arguments follow the program name (the code checks
len(argv) < 3, counting the program name); with exactly two arguments after
the program name it passes the check and crashes with an IndexError on
argv[3]. -/
theorem C6_usage_amended (argv : List String) :
    (argv.length < 3 → main argv = MainResult.usage) ∧
    (argv.length = 3 → main argv = MainResult.crash) := by
  constructor
  · intro h
    unfold main
    rw [if_pos h]
  · intro h
    obtain ⟨a0, a1, a2, rfl⟩ := List.length_eq_three.1 h
    unfold main
    rw [if_neg (by simp)]
    have h3 : ([a0, a1, a2].get? 3).bind parseInt = none := rfl
    rw [h3]
    cases ([a0, a1, a2].get? 1).bind parseInt <;>
      cases ([a0, a1, a2].get? 2).bind parseInt <;> rfl

/-- Witness for the amended claim C6: one argument vector on each side of
the boundary. -/
theorem C6_witness :
    main ["prog", "2"] = MainResult.usage ∧ main ["prog", "2", "3"] = MainResult.crash :=
  ⟨(C6_usage_amended ["prog", "2"]).1 (by decide),
   (C6_usage_amended ["prog", "2", "3"]).2 (by decide)⟩

/-!
## make_social_circles_network (networkgen/_social_circles.py)

numpy state is modelled functionally: the placement grid is a function from
coordinates to the stored cell value (dtype uint8, so an agent's reach is
stored modulo 256; the dok_matrix fallback after MemoryError behaves
identically at this level), the adjacency matrix M is kept as the list of
normalised index pairs set to 1, and the process-global numpy generator is
an explicit tape: the k-th call of rand.integers(d) returns tape k % d
(every sequence of in-range draws is some tape), and rand.integers(0) - a
zero grid dimension - raises ValueError.  The rejection-sampling loop of
choose_empty_spot gets explicit fuel; exhausting it corresponds to the
Python loop still running and is reported as noFuel, never as a returned
value.  Comparisons np.sqrt(dx^2 + dy^2) <= reach are exact on float64 for
integer inputs of this magnitude, so they are modelled as
dx^2 + dy^2 <= reach^2 over ℤ.  The input Dict[Agent, int] is its list of
items in insertion order.
-/

/-- An agent type: a color and a reach. -/
structure Agent where
  color : String
  reach : ℕ
  deriving DecidableEq, Repr

/-- The placement grid: its shape and cell contents. -/
structure SCGrid where
  d1 : ℕ
  d2 : ℕ
  cells : ℕ → ℕ → ℕ

/-- grid[x, y] = v. -/
def SCGrid.set (g : SCGrid) (x y v : ℕ) : SCGrid :=
  { g with cells := fun i j => if i = x ∧ j = y then v else g.cells i j }

/-- Python dict assignment d[key] = v: replace in place, or append a new
key at the end. -/
def dictInsert : List ((ℕ × ℕ) × ℕ) → ℕ × ℕ → ℕ → List ((ℕ × ℕ) × ℕ)
  | [], key, v => [(key, v)]
  | kv :: rest, key, v =>
    if kv.1 = key then (key, v) :: rest else kv :: dictInsert rest key v

/-- Squared Euclidean distance between two grid cells. -/
def dist2 (x0 y0 x1 y1 : ℕ) : ℤ :=
  ((x0 : ℤ) - x1) ^ 2 + ((y0 : ℤ) - y1) ^ 2

/-- search_for_neighbors: scan the half-open bounding box
[max(0, x-reach), min(dim1-1, x+reach)) x [max(0, y-reach), min(dim2-1, y+reach))
(Nat subtraction is the max with 0) for occupied cells within Euclidean
distance reach of (x, y), excluding (x, y) itself.  Python builds a set;
order is irrelevant since the caller only sets matrix entries. -/
def search_for_neighbors (g : SCGrid) (x y : ℕ) : List (ℕ × ℕ) :=
  (List.range' (x - g.cells x y)
      (min (g.d1 - 1) (x + g.cells x y) - (x - g.cells x y))).flatMap fun i =>
    (List.range' (y - g.cells x y)
        (min (g.d2 - 1) (y + g.cells x y) - (y - g.cells x y))).filterMap fun j =>
      if 0 < g.cells i j ∧ dist2 x y i j ≤ (g.cells x y : ℤ) ^ 2 ∧ (x, y) ≠ (i, j)
      then some (i, j) else none

inductive SpotResult
  | found (x y k : ℕ)
  | noFuel
  | err
  deriving DecidableEq, Repr

/-- choose_empty_spot: sample random cells until one with grid value 0 is
found.  The two rand.integers calls per iteration consume two tape entries
starting at position k. -/
def choose_empty_spot (g : SCGrid) (tape : ℕ → ℕ) : ℕ → ℕ → SpotResult
  | 0, _ => SpotResult.noFuel
  | fuel + 1, k =>
    if g.d1 = 0 ∨ g.d2 = 0 then SpotResult.err
    else
      if 0 < g.cells (tape k % g.d1) (tape (k + 1) % g.d2)
      then choose_empty_spot g tape fuel (k + 2)
      else SpotResult.found (tape k % g.d1) (tape (k + 1) % g.d2) (k + 2)

/-- The state threaded through one generation attempt.  placed is a ghost
field recording, in id order, the color of the agent type that received
each id; the Python code holds this information only implicitly in the
placement order. -/
structure SCState where
  grid : SCGrid
  loc : List ((ℕ × ℕ) × ℕ)
  cid : ℕ
  M : List (ℕ × ℕ)
  placed : List String
  k : ℕ

inductive Res (α : Type)
  | ok (a : α)
  | noFuel
  | err

/-- The for _ in range(quantity) placement loop for one agent type: choose
an empty cell, write the reach into the grid (uint8: modulo 256), record
the location and its id, and remember the new agent. -/
def place_loop (a : Agent) (tape : ℕ → ℕ) (fuel : ℕ) :
    ℕ → SCState → List (ℕ × ℕ) → Res (SCState × List (ℕ × ℕ))
  | 0, s, acc => Res.ok (s, acc)
  | q + 1, s, acc =>
    match choose_empty_spot s.grid tape fuel s.k with
    | SpotResult.noFuel => Res.noFuel
    | SpotResult.err => Res.err
    | SpotResult.found x y k2 =>
      place_loop a tape fuel q
        { grid := s.grid.set x y (a.reach % 256)
          loc := dictInsert s.loc (x, y) s.cid
          cid := s.cid + 1
          M := s.M
          placed := s.placed ++ [a.color]
          k := k2 }
        (acc ++ [(x, y)])

/-- The for x, y in new_agents loop: M[id(x,y), id(i,j)] = 1 and its mirror
entry become one normalised pair per found neighbor.  The getD defaults are
never used: both cells are occupied, hence in loc_to_id. -/
def connect_agents (g : SCGrid) (loc : List ((ℕ × ℕ) × ℕ)) (newA : List (ℕ × ℕ))
    (M : List (ℕ × ℕ)) : List (ℕ × ℕ) :=
  M ++ newA.flatMap fun p =>
    (search_for_neighbors g p.1 p.2).map fun q =>
      normPair ((loc.lookup p).getD 0) ((loc.lookup q).getD 0)

/-- Place all agents of one type, then connect the newly placed batch. -/
def process_type (tape : ℕ → ℕ) (fuel : ℕ) (s : SCState) (aq : Agent × ℕ) :
    Res SCState :=
  match place_loop aq.1 tape fuel aq.2 s [] with
  | Res.noFuel => Res.noFuel
  | Res.err => Res.err
  | Res.ok (s2, newA) =>
    Res.ok { s2 with M := connect_agents s2.grid s2.loc newA s2.M }

/-- The for agent, quantity in agents loop. -/
def types_loop (tape : ℕ → ℕ) (fuel : ℕ) : List (Agent × ℕ) → SCState → Res SCState
  | [], s => Res.ok s
  | aq :: rest, s =>
    match process_type tape fuel s aq with
    | Res.noFuel => Res.noFuel
    | Res.err => Res.err
    | Res.ok s2 => types_loop tape fuel rest s2

/-- sorted(items, key=reach, reverse=True): Python's stable descending sort
by reach, as insertion sort keeping equal-reach items in input order. -/
def insertDesc (a : Agent × ℕ) : List (Agent × ℕ) → List (Agent × ℕ)
  | [] => [a]
  | c :: cs => if a.1.reach < c.1.reach then c :: insertDesc a cs else a :: c :: cs

def sortAgents (l : List (Agent × ℕ)) : List (Agent × ℕ) := l.foldr insertDesc []

def initState (d1 d2 k0 : ℕ) : SCState :=
  { grid := ⟨d1, d2, fun _ _ => 0⟩, loc := [], cid := 0, M := [], placed := [], k := k0 }

/-- One generation attempt, starting at tape position k0. -/
def run_attempt (input : List (Agent × ℕ)) (d1 d2 : ℕ) (tape : ℕ → ℕ)
    (fuel k0 : ℕ) : Res SCState :=
  types_loop tape fuel (sortAgents input) (initState d1 d2 k0)

/-- num_nodes = sum(agent_type_to_quantity.values()). -/
def totalQuantity (input : List (Agent × ℕ)) : ℕ := (input.map Prod.snd).sum

/-- The returned colors: quantity copies of each color, in the iteration
order of the input mapping (agent_type_to_quantity.items()). -/
def colorsOfInput (input : List (Agent × ℕ)) : List String :=
  input.flatMap fun aq => List.replicate aq.2 aq.1.color

/-- The returned layout: each placed location, rescaled per axis to
[-1, 1]. -/
def layoutOfState (d1 d2 : ℕ) (s : SCState) : List (ℕ × ℚ × ℚ) :=
  s.loc.map fun kv =>
    (kv.2, (2 * (kv.1.1 : ℚ) / d1 - 1, 2 * (kv.1.2 : ℚ) / d2 - 1))

/-- One breadth-first expansion step over the edge list. -/
def expandOnce (es : List (ℕ × ℕ)) (s0 : Finset ℕ) : Finset ℕ :=
  es.foldl
    (fun acc e =>
      if e.1 ∈ s0 then insert e.2 acc else if e.2 ∈ s0 then insert e.1 acc else acc)
    s0

def reachFix (es : List (ℕ × ℕ)) : ℕ → Finset ℕ → Finset ℕ
  | 0, s0 => s0
  | f + 1, s0 => reachFix es f (expandOnce es s0)

/-- nx.is_connected on a non-null graph: the closure from the first node
covers every node (as many expansion rounds as there are nodes suffice).
networkx raises on the null graph; the caller guards that case. -/
def is_connectedB (g : Graph) : Bool :=
  match g.nodes with
  | [] => false
  | v :: _ => (reachFix g.edges g.nodes.length {v}).card == g.nodes.length

inductive SCResult
  | success (G : Graph) (layout : List (ℕ × ℚ × ℚ)) (colors : List String)
  | failure
  | err
  | noFuel
  deriving DecidableEq, Repr

/-- The for attempt in range(max_tries) loop.  On a finished attempt the
graph is nx.Graph(M): nodes range(num_nodes), edges the set entries of M.
The connectivity test is short-circuited exactly as in Python:
(not force_connected) or nx.is_connected(G), where nx.is_connected raises
NetworkXPointlessConcept (err) on the null graph. -/
def msc_loop (input : List (Agent × ℕ)) (d1 d2 : ℕ) (force_connected : Bool)
    (tape : ℕ → ℕ) (fuel : ℕ) : ℕ → ℕ → SCResult
  | 0, _ => SCResult.failure
  | tries + 1, k0 =>
    match run_attempt input d1 d2 tape fuel k0 with
    | Res.noFuel => SCResult.noFuel
    | Res.err => SCResult.err
    | Res.ok s =>
      if force_connected = false then
        SCResult.success ⟨List.range (totalQuantity input), s.M⟩
          (layoutOfState d1 d2 s) (colorsOfInput input)
      else if totalQuantity input = 0 then SCResult.err
      else if is_connectedB ⟨List.range (totalQuantity input), s.M⟩ then
        SCResult.success ⟨List.range (totalQuantity input), s.M⟩
          (layoutOfState d1 d2 s) (colorsOfInput input)
      else msc_loop input d1 d2 force_connected tape fuel tries s.k

/-- make_social_circles_network (the Python defaults are
force_connected = true and max_tries = 5). -/
def make_social_circles_network (input : List (Agent × ℕ)) (grid_size : ℕ × ℕ)
    (force_connected : Bool) (max_tries : ℕ) (tape : ℕ → ℕ) (fuel : ℕ) : SCResult :=
  msc_loop input grid_size.1 grid_size.2 force_connected tape fuel max_tries 0

def graphOf : SCResult → Graph
  | SCResult.success G _ _ => G
  | _ => Graph.empty

def layoutOf : SCResult → List (ℕ × ℚ × ℚ)
  | SCResult.success _ l _ => l
  | _ => []

def colorsOf : SCResult → List String
  | SCResult.success _ _ c => c
  | _ => []

def placedOf : Res SCState → List String
  | Res.ok s => s.placed
  | _ => []

/-- The all-zeros random tape. -/
def tapeZero : ℕ → ℕ := fun _ => 0

/-- A tape placing two agents at (0,0) and (1,0) on a 3x3 grid. -/
def tapeTwo : ℕ → ℕ := fun k => [0, 0, 1, 0].getD k 0

/-- A tape placing the first agent at (0,0) and the second at (2,2) on a
3x3 grid. -/
def tapeMix : ℕ → ℕ := fun k => [0, 0, 2, 2].getD k 0

/-- One agent type of reach 2, quantity 2. -/
def inputOneType : List (Agent × ℕ) := [(⟨"a", 2⟩, 2)]

/-- Two agent types whose input order ("a" first) differs from their
descending-reach placement order ("b" first). -/
def inputTwoTypes : List (Agent × ℕ) := [(⟨"a", 1⟩, 1), (⟨"b", 2⟩, 1)]

/-- One agent type of reach 256 (stored as 0 in the uint8 grid),
quantity 2. -/
def inputWrap : List (Agent × ℕ) := [(⟨"r", 256⟩, 2)]

/-!
## Facts about the social-circles helpers
-/

theorem mem_search_for_neighbors (g : SCGrid) (x y i j : ℕ) :
    (i, j) ∈ search_for_neighbors g x y ↔
      x - g.cells x y ≤ i ∧ i < min (g.d1 - 1) (x + g.cells x y) ∧
      y - g.cells x y ≤ j ∧ j < min (g.d2 - 1) (y + g.cells x y) ∧
      0 < g.cells i j ∧ dist2 x y i j ≤ (g.cells x y : ℤ) ^ 2 ∧ (x, y) ≠ (i, j) := by
  unfold search_for_neighbors
  rw [List.mem_flatMap]
  constructor
  · rintro ⟨i0, hi0, hj0⟩
    rw [List.mem_range'_1] at hi0
    rw [List.mem_filterMap] at hj0
    obtain ⟨j0, hj0m, hj0e⟩ := hj0
    rw [List.mem_range'_1] at hj0m
    by_cases hc : 0 < g.cells i0 j0 ∧ dist2 x y i0 j0 ≤ (g.cells x y : ℤ) ^ 2 ∧
        (x, y) ≠ (i0, j0)
    · rw [if_pos hc] at hj0e
      have hij : i0 = i ∧ j0 = j := by
        have := Option.some.inj hj0e
        exact ⟨congrArg Prod.fst this, congrArg Prod.snd this⟩
      obtain ⟨rfl, rfl⟩ := hij
      exact ⟨hi0.1, by omega, hj0m.1, by omega, hc.1, hc.2.1, hc.2.2⟩
    · rw [if_neg hc] at hj0e
      cases hj0e
  · rintro ⟨h1, h2, h3, h4, h5, h6, h7⟩
    refine ⟨i, ?_, ?_⟩
    · rw [List.mem_range'_1]
      exact ⟨h1, by omega⟩
    · rw [List.mem_filterMap]
      refine ⟨j, ?_, ?_⟩
      · rw [List.mem_range'_1]
        exact ⟨h3, by omega⟩
      · rw [if_pos ⟨h5, h6, h7⟩]

/-- A found neighbor forces a positive reach at the searching cell: two
distinct cells are at squared distance at least 1. -/
theorem search_reach_pos (g : SCGrid) (x y i j : ℕ)
    (h : (i, j) ∈ search_for_neighbors g x y) : 0 < g.cells x y := by
  obtain ⟨-, -, -, -, -, hdist, hne⟩ := (mem_search_for_neighbors g x y i j).1 h
  by_contra hzero
  push_neg at hzero
  have hc : g.cells x y = 0 := by omega
  rw [hc] at hdist
  have h1 : (1 : ℤ) ≤ dist2 x y i j := by
    unfold dist2
    have : ¬ (x = i ∧ y = j) := by
      intro ⟨hx, hy⟩
      exact hne (by rw [hx, hy])
    rcases Classical.em (x = i) with rfl | hx
    · have hy : y ≠ j := fun hy => this ⟨rfl, hy⟩
      have hsq : ((y : ℤ) - j) ^ 2 ≥ 1 := by
        have hne0 : (y : ℤ) - j ≠ 0 := by
          intro hd
          exact hy (by omega)
        rcases lt_or_gt_of_ne hne0 with hlt | hgt
        · nlinarith
        · nlinarith
      nlinarith [sq_nonneg ((x : ℤ) - x)]
    · have hsq : ((x : ℤ) - i) ^ 2 ≥ 1 := by
        have hne0 : (x : ℤ) - i ≠ 0 := by
          intro hd
          exact hx (by omega)
        rcases lt_or_gt_of_ne hne0 with hlt | hgt
        · nlinarith
        · nlinarith
      nlinarith [sq_nonneg ((y : ℤ) - j)]
  simp at hdist
  omega

theorem choose_empty_spot_found (g : SCGrid) (tape : ℕ → ℕ) :
    ∀ (fuel k x y k2 : ℕ), choose_empty_spot g tape fuel k = SpotResult.found x y k2 →
      g.cells x y = 0 ∧ x < g.d1 ∧ y < g.d2 := by
  intro fuel
  induction fuel with
  | zero => intro k x y k2 h; simp [choose_empty_spot] at h
  | succ fuel ih =>
    intro k x y k2 h
    unfold choose_empty_spot at h
    by_cases h1 : g.d1 = 0 ∨ g.d2 = 0
    · rw [if_pos h1] at h
      cases h
    · rw [if_neg h1] at h
      push_neg at h1
      by_cases h2 : 0 < g.cells (tape k % g.d1) (tape (k + 1) % g.d2)
      · rw [if_pos h2] at h
        exact ih (k + 2) x y k2 h
      · rw [if_neg h2] at h
        injection h with e1 e2 e3
        subst e1
        subst e2
        exact ⟨by omega, Nat.mod_lt _ (Nat.pos_of_ne_zero h1.1),
          Nat.mod_lt _ (Nat.pos_of_ne_zero h1.2)⟩

theorem choose_empty_spot_err (g : SCGrid) (tape : ℕ → ℕ) :
    ∀ (fuel k : ℕ), choose_empty_spot g tape fuel k = SpotResult.err →
      g.d1 = 0 ∨ g.d2 = 0 := by
  intro fuel
  induction fuel with
  | zero => intro k h; simp [choose_empty_spot] at h
  | succ fuel ih =>
    intro k h
    unfold choose_empty_spot at h
    by_cases h1 : g.d1 = 0 ∨ g.d2 = 0
    · exact h1
    · rw [if_neg h1] at h
      by_cases h2 : 0 < g.cells (tape k % g.d1) (tape (k + 1) % g.d2)
      · rw [if_pos h2] at h
        exact ih (k + 2) h
      · rw [if_neg h2] at h
        cases h

theorem lookup_cons_self (k : ℕ × ℕ) (v : ℕ) (rest : List ((ℕ × ℕ) × ℕ)) :
    List.lookup k ((k, v) :: rest) = some v := by
  simp [List.lookup]

theorem lookup_cons_ne {p k : ℕ × ℕ} (h : p ≠ k) (v : ℕ) (rest : List ((ℕ × ℕ) × ℕ)) :
    List.lookup p ((k, v) :: rest) = List.lookup p rest := by
  simp only [List.lookup]
  rw [show (p == k) = false from beq_eq_false_iff_ne.2 h]

theorem lookup_dictInsert (key : ℕ × ℕ) (v : ℕ) :
    ∀ (m : List ((ℕ × ℕ) × ℕ)) (p : ℕ × ℕ),
      (dictInsert m key v).lookup p = if p = key then some v else m.lookup p := by
  intro m
  induction m with
  | nil =>
    intro p
    show List.lookup p [(key, v)] = _
    by_cases h : p = key
    · subst h
      rw [lookup_cons_self, if_pos rfl]
    · rw [lookup_cons_ne h, if_neg h]
  | cons kv rest ih =>
    intro p
    obtain ⟨k0, v0⟩ := kv
    show (if (k0, v0).1 = key then (key, v) :: rest
      else (k0, v0) :: dictInsert rest key v).lookup p = _
    by_cases hk : k0 = key
    · rw [if_pos (by simpa using hk)]
      subst hk
      by_cases hp : p = k0
      · subst hp
        rw [lookup_cons_self, if_pos rfl]
      · rw [lookup_cons_ne hp, if_neg hp, lookup_cons_ne hp]
    · rw [if_neg (by simpa using hk)]
      by_cases hp : p = k0
      · subst hp
        rw [lookup_cons_self, if_neg (by simpa using hk), lookup_cons_self]
      · rw [lookup_cons_ne hp, ih p, lookup_cons_ne hp]

theorem SCGrid.set_cells (g : SCGrid) (x y v i j : ℕ) :
    (g.set x y v).cells i j = if i = x ∧ j = y then v else g.cells i j := rfl

theorem SCGrid.set_d1 (g : SCGrid) (x y v : ℕ) : (g.set x y v).d1 = g.d1 := rfl

theorem SCGrid.set_d2 (g : SCGrid) (x y v : ℕ) : (g.set x y v).d2 = g.d2 := rfl

/-- The run invariant of one generation attempt: loc_to_id values stay
below current_id; every occupied cell has a loc_to_id entry and stores some
input agent type's reach modulo 256; and every recorded matrix entry joins
the ids of two occupied cells whose squared distance is within the squared
stored reach of at least one of them. -/
structure SCInv (input : List (Agent × ℕ)) (s : SCState) : Prop where
  locVal : ∀ p v, s.loc.lookup p = some v → v < s.cid
  gridKey : ∀ x y, 0 < s.grid.cells x y → (s.loc.lookup (x, y)).isSome
  gridAgent : ∀ x y, 0 < s.grid.cells x y →
    ∃ aq ∈ input, s.grid.cells x y = aq.1.reach % 256
  edgeProp : ∀ e ∈ s.M, ∃ pu pv au av,
    s.loc.lookup pu = some au ∧ s.loc.lookup pv = some av ∧ e = normPair au av ∧
    0 < s.grid.cells pu.1 pu.2 ∧ 0 < s.grid.cells pv.1 pv.2 ∧
    (dist2 pu.1 pu.2 pv.1 pv.2 ≤ (s.grid.cells pu.1 pu.2 : ℤ) ^ 2 ∨
     dist2 pu.1 pu.2 pv.1 pv.2 ≤ (s.grid.cells pv.1 pv.2 : ℤ) ^ 2)

theorem SCInv_init (input : List (Agent × ℕ)) (d1 d2 k0 : ℕ) :
    SCInv input (initState d1 d2 k0) := by
  refine ⟨?_, ?_, ?_, ?_⟩
  · intro p v h
    simp [initState, List.lookup] at h
  · intro x y h
    simp [initState] at h
  · intro x y h
    simp [initState] at h
  · intro e he
    simp [initState] at he

theorem place_loop_dims (a : Agent) (tape : ℕ → ℕ) (fuel : ℕ) :
    ∀ (q : ℕ) (s : SCState) (acc : List (ℕ × ℕ)) (s2 : SCState) (acc2 : List (ℕ × ℕ)),
      place_loop a tape fuel q s acc = Res.ok (s2, acc2) →
      s2.grid.d1 = s.grid.d1 ∧ s2.grid.d2 = s.grid.d2 := by
  intro q
  induction q with
  | zero =>
    intro s acc s2 acc2 h
    cases h
    exact ⟨rfl, rfl⟩
  | succ q ih =>
    intro s acc s2 acc2 h
    unfold place_loop at h
    cases hspot : choose_empty_spot s.grid tape fuel s.k with
    | noFuel => rw [hspot] at h; cases h
    | err => rw [hspot] at h; cases h
    | found x y k2 =>
      rw [hspot] at h
      have h2 : place_loop a tape fuel q
          { grid := s.grid.set x y (a.reach % 256)
            loc := dictInsert s.loc (x, y) s.cid
            cid := s.cid + 1
            M := s.M
            placed := s.placed ++ [a.color]
            k := k2 } (acc ++ [(x, y)]) = Res.ok (s2, acc2) := h
      obtain ⟨ha, hb⟩ := ih _ _ _ _ h2
      exact ⟨ha, hb⟩

theorem place_loop_err (a : Agent) (tape : ℕ → ℕ) (fuel : ℕ) :
    ∀ (q : ℕ) (s : SCState) (acc : List (ℕ × ℕ)),
      place_loop a tape fuel q s acc = Res.err →
      s.grid.d1 = 0 ∨ s.grid.d2 = 0 := by
  intro q
  induction q with
  | zero => intro s acc h; cases h
  | succ q ih =>
    intro s acc h
    unfold place_loop at h
    cases hspot : choose_empty_spot s.grid tape fuel s.k with
    | noFuel => rw [hspot] at h; cases h
    | err => exact choose_empty_spot_err s.grid tape fuel s.k hspot
    | found x y k2 =>
      rw [hspot] at h
      have h2 : place_loop a tape fuel q
          { grid := s.grid.set x y (a.reach % 256)
            loc := dictInsert s.loc (x, y) s.cid
            cid := s.cid + 1
            M := s.M
            placed := s.placed ++ [a.color]
            k := k2 } (acc ++ [(x, y)]) = Res.err := h
      have h3 := ih _ _ h2
      exact h3

theorem place_loop_spec (input : List (Agent × ℕ)) (a : Agent) (tape : ℕ → ℕ)
    (fuel : ℕ) (ha : ∃ bq ∈ input, bq.1 = a) :
    ∀ (q : ℕ) (s : SCState) (acc : List (ℕ × ℕ)) (s2 : SCState) (acc2 : List (ℕ × ℕ)),
      place_loop a tape fuel q s acc = Res.ok (s2, acc2) →
      SCInv input s →
      SCInv input s2 ∧ s2.cid = s.cid + q ∧ s2.M = s.M ∧
      s2.placed = s.placed ++ List.replicate q a.color ∧
      (∀ p, (s.loc.lookup p).isSome → (s2.loc.lookup p).isSome) ∧
      (∀ p ∈ acc2, p ∈ acc ∨ (s2.loc.lookup p).isSome) := by
  intro q
  induction q with
  | zero =>
    intro s acc s2 acc2 h hinv
    cases h
    exact ⟨hinv, rfl, rfl, by simp, fun p hp => hp, fun p hp => Or.inl hp⟩
  | succ q ih =>
    intro s acc s2 acc2 h hinv
    unfold place_loop at h
    cases hspot : choose_empty_spot s.grid tape fuel s.k with
    | noFuel => rw [hspot] at h; cases h
    | err => rw [hspot] at h; cases h
    | found x y k2 =>
      rw [hspot] at h
      obtain ⟨hempty, hx, hy⟩ := choose_empty_spot_found s.grid tape fuel s.k x y k2 hspot
      have hnotkey : ∀ pu : ℕ × ℕ, 0 < s.grid.cells pu.1 pu.2 → pu ≠ (x, y) := by
        intro pu hpos hc
        rw [hc] at hpos
        simp only at hpos
        omega
      have hinv2 : SCInv input
          { grid := s.grid.set x y (a.reach % 256)
            loc := dictInsert s.loc (x, y) s.cid
            cid := s.cid + 1
            M := s.M
            placed := s.placed ++ [a.color]
            k := k2 } := by
        refine ⟨?_, ?_, ?_, ?_⟩
        · intro p v hv
          simp only at hv
          rw [lookup_dictInsert] at hv
          by_cases hp : p = (x, y)
          · rw [if_pos hp] at hv
            cases hv
            show s.cid < s.cid + 1
            omega
          · rw [if_neg hp] at hv
            have := hinv.locVal p v hv
            show v < s.cid + 1
            omega
        · intro i j hpos
          simp only [SCGrid.set_cells] at hpos ⊢
          rw [lookup_dictInsert]
          by_cases hij : (i, j) = (x, y)
          · rw [if_pos hij]
            rfl
          · rw [if_neg hij]
            apply hinv.gridKey
            rw [if_neg (by
              intro ⟨h1, h2⟩
              exact hij (by rw [h1, h2]))] at hpos
            exact hpos
        · intro i j hpos
          simp only [SCGrid.set_cells] at hpos ⊢
          by_cases hij : i = x ∧ j = y
          · rw [if_pos hij] at hpos ⊢
            obtain ⟨bq, hbq, hbqa⟩ := ha
            exact ⟨bq, hbq, by rw [hbqa]⟩
          · rw [if_neg hij] at hpos ⊢
            exact hinv.gridAgent i j hpos
        · intro e he
          simp only at he
          obtain ⟨pu, pv, au, av, hau, hav, heq, hgu, hgv, hd⟩ := hinv.edgeProp e he
          have hpu := hnotkey pu hgu
          have hpv := hnotkey pv hgv
          refine ⟨pu, pv, au, av, ?_, ?_, heq, ?_, ?_, ?_⟩
          · simp only
            rw [lookup_dictInsert, if_neg hpu]
            exact hau
          · simp only
            rw [lookup_dictInsert, if_neg hpv]
            exact hav
          · simp only [SCGrid.set_cells]
            rw [if_neg (by
              intro ⟨h1, h2⟩
              exact hpu (by rw [Prod.ext_iff]; exact ⟨h1, h2⟩))]
            exact hgu
          · simp only [SCGrid.set_cells]
            rw [if_neg (by
              intro ⟨h1, h2⟩
              exact hpv (by rw [Prod.ext_iff]; exact ⟨h1, h2⟩))]
            exact hgv
          · simp only [SCGrid.set_cells]
            rw [if_neg (by
              intro ⟨h1, h2⟩
              exact hpu (by rw [Prod.ext_iff]; exact ⟨h1, h2⟩)),
              if_neg (by
              intro ⟨h1, h2⟩
              exact hpv (by rw [Prod.ext_iff]; exact ⟨h1, h2⟩))]
            exact hd
      obtain ⟨hi2, hcid, hM, hplaced, hkeys, hacc⟩ := ih _ _ _ _ h hinv2
      refine ⟨hi2, by simp only at hcid; omega, hM, ?_, ?_, ?_⟩
      · rw [hplaced]
        simp [List.replicate_succ]
      · intro p hp
        apply hkeys
        simp only
        rw [lookup_dictInsert]
        by_cases hpk : p = (x, y)
        · rw [if_pos hpk]
          rfl
        · rw [if_neg hpk]
          exact hp
      · intro p hp
        rcases hacc p hp with hmem | hsome
        · rcases List.mem_append.1 hmem with hmem | hmem
          · exact Or.inl hmem
          · right
            apply hkeys
            simp only
            rw [List.mem_singleton] at hmem
            rw [lookup_dictInsert, if_pos hmem]
            rfl
        · exact Or.inr hsome

theorem connect_preserves (input : List (Agent × ℕ)) (s2 : SCState)
    (newA : List (ℕ × ℕ)) (hinv : SCInv input s2)
    (hacc : ∀ p ∈ newA, (s2.loc.lookup p).isSome) :
    SCInv input { s2 with M := connect_agents s2.grid s2.loc newA s2.M } := by
  refine ⟨hinv.locVal, hinv.gridKey, hinv.gridAgent, ?_⟩
  intro e he
  simp only [connect_agents, List.mem_append, List.mem_flatMap, List.mem_map] at he
  rcases he with he | ⟨p, hp, q, hq, heq⟩
  · exact hinv.edgeProp e he
  · obtain ⟨au, hau⟩ := Option.isSome_iff_exists.1 (hacc p hp)
    have hqmem : (q.1, q.2) ∈ search_for_neighbors s2.grid p.1 p.2 := hq
    have hqpos : 0 < s2.grid.cells q.1 q.2 :=
      ((mem_search_for_neighbors s2.grid p.1 p.2 q.1 q.2).1 hqmem).2.2.2.2.1
    have hppos : 0 < s2.grid.cells p.1 p.2 :=
      search_reach_pos s2.grid p.1 p.2 q.1 q.2 hqmem
    obtain ⟨av, hav⟩ := Option.isSome_iff_exists.1
      (show (s2.loc.lookup q).isSome from hinv.gridKey q.1 q.2 hqpos)
    have hdist : dist2 p.1 p.2 q.1 q.2 ≤ (s2.grid.cells p.1 p.2 : ℤ) ^ 2 :=
      ((mem_search_for_neighbors s2.grid p.1 p.2 q.1 q.2).1 hqmem).2.2.2.2.2.1
    refine ⟨p, q, au, av, hau, hav, ?_, hppos, hqpos, Or.inl hdist⟩
    rw [← heq, hau, hav]
    rfl

theorem process_type_spec (input : List (Agent × ℕ)) (tape : ℕ → ℕ) (fuel : ℕ)
    (s s2 : SCState) (aq : Agent × ℕ) (ha : ∃ bq ∈ input, bq.1 = aq.1)
    (h : process_type tape fuel s aq = Res.ok s2) (hinv : SCInv input s) :
    SCInv input s2 ∧ s2.cid = s.cid + aq.2 ∧
    s2.grid.d1 = s.grid.d1 ∧ s2.grid.d2 = s.grid.d2 ∧
    s2.placed = s.placed ++ List.replicate aq.2 aq.1.color := by
  unfold process_type at h
  cases hpl : place_loop aq.1 tape fuel aq.2 s [] with
  | noFuel => rw [hpl] at h; cases h
  | err => rw [hpl] at h; cases h
  | ok pr =>
    obtain ⟨sp, newA⟩ := pr
    rw [hpl] at h
    have hs2 : s2 = { sp with M := connect_agents sp.grid sp.loc newA sp.M } := by
      injection h with h'
      exact h'.symm
    obtain ⟨hinvp, hcid, hM, hplaced, hkeys, haccm⟩ :=
      place_loop_spec input aq.1 tape fuel ha aq.2 s [] sp newA hpl hinv
    obtain ⟨hd1, hd2⟩ := place_loop_dims aq.1 tape fuel aq.2 s [] sp newA hpl
    have hacc : ∀ p ∈ newA, (sp.loc.lookup p).isSome := by
      intro p hp
      rcases haccm p hp with hmem | hsome
      · cases hmem
      · exact hsome
    subst hs2
    exact ⟨connect_preserves input sp newA hinvp hacc, hcid, hd1, hd2, hplaced⟩

theorem process_type_err (tape : ℕ → ℕ) (fuel : ℕ) (s : SCState) (aq : Agent × ℕ)
    (h : process_type tape fuel s aq = Res.err) : s.grid.d1 = 0 ∨ s.grid.d2 = 0 := by
  unfold process_type at h
  cases hpl : place_loop aq.1 tape fuel aq.2 s [] with
  | noFuel => rw [hpl] at h; cases h
  | err => exact place_loop_err aq.1 tape fuel aq.2 s [] hpl
  | ok pr => obtain ⟨sp, newA⟩ := pr; rw [hpl] at h; cases h

theorem types_loop_spec (input : List (Agent × ℕ)) (tape : ℕ → ℕ) (fuel : ℕ) :
    ∀ (l : List (Agent × ℕ)) (s s2 : SCState),
      (∀ aq ∈ l, ∃ bq ∈ input, bq.1 = aq.1) →
      types_loop tape fuel l s = Res.ok s2 → SCInv input s →
      SCInv input s2 ∧ s2.cid = s.cid + totalQuantity l ∧
      s2.grid.d1 = s.grid.d1 ∧ s2.grid.d2 = s.grid.d2 ∧
      s2.placed = s.placed ++ colorsOfInput l := by
  intro l
  induction l with
  | nil =>
    intro s s2 _ h hinv
    cases h
    exact ⟨hinv, by simp [totalQuantity], rfl, rfl, by simp [colorsOfInput]⟩
  | cons aq rest ih =>
    intro s s2 hmem h hinv
    unfold types_loop at h
    cases hpt : process_type tape fuel s aq with
    | noFuel => rw [hpt] at h; cases h
    | err => rw [hpt] at h; cases h
    | ok s3 =>
      rw [hpt] at h
      obtain ⟨hinv3, hcid3, hd13, hd23, hplaced3⟩ :=
        process_type_spec input tape fuel s s3 aq
          (hmem aq (List.mem_cons_self aq rest)) hpt hinv
      obtain ⟨hinv2, hcid2, hd12, hd22, hplaced2⟩ :=
        ih s3 s2 (fun bq hbq => hmem bq (List.mem_cons_of_mem aq hbq)) h hinv3
      refine ⟨hinv2, ?_, hd12.trans hd13, hd22.trans hd23, ?_⟩
      · have ht : totalQuantity (aq :: rest) = aq.2 + totalQuantity rest := by
          simp [totalQuantity]
        omega
      · rw [hplaced2, hplaced3]
        simp [colorsOfInput]

theorem types_loop_not_err (tape : ℕ → ℕ) (fuel : ℕ) :
    ∀ (l : List (Agent × ℕ)) (s : SCState),
      0 < s.grid.d1 → 0 < s.grid.d2 → types_loop tape fuel l s ≠ Res.err := by
  intro l
  induction l with
  | nil =>
    intro s _ _ h
    cases h
  | cons aq rest ih =>
    intro s hd1 hd2 h
    unfold types_loop at h
    cases hpt : process_type tape fuel s aq with
    | noFuel => rw [hpt] at h; cases h
    | err =>
      rcases process_type_err tape fuel s aq hpt with h0 | h0 <;> omega
    | ok s3 =>
      rw [hpt] at h
      unfold process_type at hpt
      cases hpl : place_loop aq.1 tape fuel aq.2 s [] with
      | noFuel => rw [hpl] at hpt; cases hpt
      | err => rw [hpl] at hpt; cases hpt
      | ok pr =>
        obtain ⟨sp, newA⟩ := pr
        rw [hpl] at hpt
        obtain ⟨hpd1, hpd2⟩ := place_loop_dims aq.1 tape fuel aq.2 s [] sp newA hpl
        have hs3 : s3 = { sp with M := connect_agents sp.grid sp.loc newA sp.M } := by
          injection hpt with h'
          exact h'.symm
        apply ih s3 _ _ h
        · rw [hs3]
          show 0 < sp.grid.d1
          omega
        · rw [hs3]
          show 0 < sp.grid.d2
          omega

theorem insertDesc_perm (a : Agent × ℕ) :
    ∀ l : List (Agent × ℕ), List.Perm (insertDesc a l) (a :: l) := by
  intro l
  induction l with
  | nil => exact List.Perm.refl _
  | cons c cs ih =>
    unfold insertDesc
    by_cases h : a.1.reach < c.1.reach
    · rw [if_pos h]
      exact (ih.cons c).trans (List.Perm.swap a c cs)
    · rw [if_neg h]

theorem sortAgents_perm (l : List (Agent × ℕ)) : List.Perm (sortAgents l) l := by
  induction l with
  | nil => exact List.Perm.refl _
  | cons a rest ih =>
    show List.Perm (insertDesc a (sortAgents rest)) (a :: rest)
    exact (insertDesc_perm a (sortAgents rest)).trans (ih.cons a)

theorem mem_sortAgents (l : List (Agent × ℕ)) (aq : Agent × ℕ) :
    aq ∈ sortAgents l ↔ aq ∈ l :=
  (sortAgents_perm l).mem_iff

theorem totalQuantity_sortAgents (l : List (Agent × ℕ)) :
    totalQuantity (sortAgents l) = totalQuantity l :=
  ((sortAgents_perm l).map Prod.snd).sum_eq

theorem normPair_lt {u v c : ℕ} (hu : u < c) (hv : v < c) :
    (normPair u v).1 < c ∧ (normPair u v).2 < c := by
  unfold normPair
  by_cases h : u ≤ v
  · rw [if_pos h]
    exact ⟨hu, hv⟩
  · rw [if_neg h]
    exact ⟨hv, hu⟩

theorem expandOnce_aux_mem (s0 : Finset ℕ) :
    ∀ (l : List (ℕ × ℕ)) (acc : Finset ℕ) (w : ℕ),
      w ∈ l.foldl
        (fun acc e =>
          if e.1 ∈ s0 then insert e.2 acc else if e.2 ∈ s0 then insert e.1 acc else acc)
        acc →
      w ∈ acc ∨ ∃ e ∈ l, w = e.1 ∨ w = e.2 := by
  intro l
  induction l with
  | nil =>
    intro acc w h
    exact Or.inl h
  | cons e rest ih =>
    intro acc w h
    rw [List.foldl_cons] at h
    rcases ih _ w h with hstep | ⟨e', he', hw⟩
    · by_cases h1 : e.1 ∈ s0
      · rw [if_pos h1] at hstep
        rcases Finset.mem_insert.1 hstep with hw | hw
        · exact Or.inr ⟨e, List.mem_cons_self e rest, Or.inr hw⟩
        · exact Or.inl hw
      · rw [if_neg h1] at hstep
        by_cases h2 : e.2 ∈ s0
        · rw [if_pos h2] at hstep
          rcases Finset.mem_insert.1 hstep with hw | hw
          · exact Or.inr ⟨e, List.mem_cons_self e rest, Or.inl hw⟩
          · exact Or.inl hw
        · rw [if_neg h2] at hstep
          exact Or.inl hstep
    · exact Or.inr ⟨e', List.mem_cons_of_mem e he', hw⟩

theorem expandOnce_mem (es : List (ℕ × ℕ)) (s0 : Finset ℕ) (w : ℕ)
    (h : w ∈ expandOnce es s0) : w ∈ s0 ∨ ∃ e ∈ es, w = e.1 ∨ w = e.2 :=
  expandOnce_aux_mem s0 es s0 w h

theorem expandOnce_aux_reach (g : Graph) (u : ℕ) (s0 : Finset ℕ)
    (h0 : ∀ w ∈ s0, Reach g u w) :
    ∀ (l : List (ℕ × ℕ)), (∀ e ∈ l, e ∈ E g) →
    ∀ (acc : Finset ℕ), (∀ w ∈ acc, Reach g u w) →
    ∀ w ∈ l.foldl
        (fun acc e =>
          if e.1 ∈ s0 then insert e.2 acc else if e.2 ∈ s0 then insert e.1 acc else acc)
        acc,
      Reach g u w := by
  intro l
  induction l with
  | nil =>
    intro _ acc hacc w h
    exact hacc w h
  | cons e rest ih =>
    intro hes acc hacc w h
    rw [List.foldl_cons] at h
    apply ih (fun e' he' => hes e' (List.mem_cons_of_mem e he')) _ _ w h
    intro w' hw'
    have heE : (e.1, e.2) ∈ E g := hes e (List.mem_cons_self e rest)
    by_cases h1 : e.1 ∈ s0
    · rw [if_pos h1] at hw'
      rcases Finset.mem_insert.1 hw' with hw' | hw'
      · subst hw'
        exact Relation.ReflTransGen.tail (h0 e.1 h1) (Or.inl heE)
      · exact hacc w' hw'
    · rw [if_neg h1] at hw'
      by_cases h2 : e.2 ∈ s0
      · rw [if_pos h2] at hw'
        rcases Finset.mem_insert.1 hw' with hw' | hw'
        · subst hw'
          exact Relation.ReflTransGen.tail (h0 e.2 h2) (Or.inr heE)
        · exact hacc w' hw'
      · rw [if_neg h2] at hw'
        exact hacc w' hw'

theorem expandOnce_reach (g : Graph) (u : ℕ) (s0 : Finset ℕ)
    (h0 : ∀ w ∈ s0, Reach g u w) :
    ∀ w ∈ expandOnce g.edges s0, Reach g u w :=
  expandOnce_aux_reach g u s0 h0 g.edges (fun e he => List.mem_toFinset.2 he) s0 h0

theorem expandOnce_reach_mono (g : Graph) (u : ℕ) (s0 : Finset ℕ)
    (h0 : ∀ w ∈ s0, Reach g u w) (w : ℕ) (hw : w ∈ s0) : w ∈ expandOnce g.edges s0 := by
  unfold expandOnce
  have : ∀ (l : List (ℕ × ℕ)) (acc : Finset ℕ), w ∈ acc →
      w ∈ l.foldl
        (fun acc e =>
          if e.1 ∈ s0 then insert e.2 acc else if e.2 ∈ s0 then insert e.1 acc else acc)
        acc := by
    intro l
    induction l with
    | nil => intro acc h; exact h
    | cons e rest ih =>
      intro acc h
      rw [List.foldl_cons]
      apply ih
      by_cases h1 : e.1 ∈ s0
      · rw [if_pos h1]
        exact Finset.mem_insert_of_mem h
      · rw [if_neg h1]
        by_cases h2 : e.2 ∈ s0
        · rw [if_pos h2]
          exact Finset.mem_insert_of_mem h
        · rw [if_neg h2]
          exact h
  exact this g.edges s0 hw

theorem reachFix_reach (g : Graph) (u : ℕ) :
    ∀ (f : ℕ) (s0 : Finset ℕ), (∀ w ∈ s0, Reach g u w) →
      ∀ w ∈ reachFix g.edges f s0, Reach g u w := by
  intro f
  induction f with
  | zero =>
    intro s0 h0 w h
    exact h0 w h
  | succ f ih =>
    intro s0 h0 w h
    exact ih (expandOnce g.edges s0) (expandOnce_reach g u s0 h0) w h

theorem reachFix_bound (n : ℕ) (es : List (ℕ × ℕ))
    (hes : ∀ e ∈ es, e.1 < n ∧ e.2 < n) :
    ∀ (f : ℕ) (s0 : Finset ℕ), (∀ w ∈ s0, w < n) →
      ∀ w ∈ reachFix es f s0, w < n := by
  intro f
  induction f with
  | zero =>
    intro s0 h0 w h
    exact h0 w h
  | succ f ih =>
    intro s0 h0 w h
    apply ih (expandOnce es s0) _ w h
    intro w' hw'
    rcases expandOnce_mem es s0 w' hw' with hw' | ⟨e, he, hw'⟩
    · exact h0 w' hw'
    · rcases hw' with rfl | rfl
      · exact (hes e he).1
      · exact (hes e he).2

theorem is_connected_sound (n : ℕ) (es : List (ℕ × ℕ)) (hn : 0 < n)
    (hes : ∀ e ∈ es, e.1 < n ∧ e.2 < n)
    (h : is_connectedB ⟨List.range n, es⟩ = true) :
    OneComponent ⟨List.range n, es⟩ := by
  obtain ⟨m, rfl⟩ : ∃ m, n = m + 1 := ⟨n - 1, by omega⟩
  have hnodes : (Graph.mk (List.range (m + 1)) es).nodes =
      0 :: (List.range m).map Nat.succ := by
    show List.range (m + 1) = _
    exact List.range_succ_eq_map m
  unfold is_connectedB at h
  rw [hnodes] at h
  have hlen2 : (0 :: List.map Nat.succ (List.range m)).length = m + 1 := by simp
  rw [hlen2] at h
  have h3 : ((reachFix (Graph.mk (List.range (m + 1)) es).edges (m + 1) {0}).card
      == m + 1) = true := h
  have hcard : (reachFix (Graph.mk (List.range (m + 1)) es).edges (m + 1) {0}).card
      = m + 1 := beq_iff_eq.mp h3
  set S := reachFix (Graph.mk (List.range (m + 1)) es).edges (m + 1) {0} with hS
  have hbound : ∀ w ∈ S, w < m + 1 := by
    apply reachFix_bound (m + 1) es hes (m + 1) {0}
    intro w hw
    rw [Finset.mem_singleton] at hw
    omega
  have hsub : S ⊆ Finset.range (m + 1) := by
    intro w hw
    rw [Finset.mem_range]
    exact hbound w hw
  have hSeq : S = Finset.range (m + 1) :=
    Finset.eq_of_subset_of_card_le hsub (by rw [Finset.card_range, hcard])
  have hreach : ∀ v ∈ V (Graph.mk (List.range (m + 1)) es),
      Reach (Graph.mk (List.range (m + 1)) es) 0 v := by
    intro v hv
    apply reachFix_reach (Graph.mk (List.range (m + 1)) es) 0 (m + 1) {0}
    · intro w hw
      rw [Finset.mem_singleton] at hw
      subst hw
      exact Relation.ReflTransGen.refl
    · rw [hS.symm] at *
      rw [hSeq, Finset.mem_range]
      have : v ∈ (List.range (m + 1)).toFinset := hv
      rw [List.mem_toFinset, List.mem_range] at this
      exact this
  have hsymm : ∀ a b, Reach (Graph.mk (List.range (m + 1)) es) a b →
      Reach (Graph.mk (List.range (m + 1)) es) b a := by
    intro a b hab
    exact Relation.ReflTransGen.symmetric (GAdj_symm _) hab
  refine ⟨⟨0, ?_⟩, ?_⟩
  · show (0 : ℕ) ∈ (List.range (m + 1)).toFinset
    rw [List.mem_toFinset, List.mem_range]
    omega
  · intro u hu v hv
    exact (hsymm 0 u (hreach u hu)).trans (hreach v hv)

theorem lookup_isSome_iff_pair : ∀ (l : List ((ℕ × ℕ) × ℕ)) (a : ℕ × ℕ),
    (l.lookup a).isSome ↔ a ∈ l.map Prod.fst := by
  intro l
  induction l with
  | nil => intro a; simp
  | cons kv rest ih =>
    intro a
    obtain ⟨k, v⟩ := kv
    by_cases h : a = k
    · subst h
      rw [lookup_cons_self]
      simp
    · rw [lookup_cons_ne h]
      rw [ih a]
      simp only [List.map_cons, List.mem_cons]
      constructor
      · exact Or.inr
      · rintro (h' | h')
        · exact absurd h' h
        · exact h'

theorem dictInsert_of_lookup_none (key : ℕ × ℕ) (v : ℕ) :
    ∀ (m : List ((ℕ × ℕ) × ℕ)), m.lookup key = none →
      dictInsert m key v = m ++ [(key, v)] := by
  intro m
  induction m with
  | nil => intro _; rfl
  | cons kv rest ih =>
    intro hnone
    obtain ⟨k0, v0⟩ := kv
    by_cases h : k0 = key
    · subst h
      rw [lookup_cons_self] at hnone
      cases hnone
    · rw [lookup_cons_ne (fun he => h he.symm)] at hnone
      show (if (k0, v0).1 = key then _ else _) = _
      rw [if_neg h, ih hnone]
      rfl

/-- Second run invariant: the loc_to_id values are exactly 0..current_id-1
in insertion order, the keys are distinct, and every recorded location is
an occupied cell. -/
structure SCInv2 (s : SCState) : Prop where
  locIds : s.loc.map Prod.snd = List.range s.cid
  keysNodup : (s.loc.map Prod.fst).Nodup
  keyGrid : ∀ p, (s.loc.lookup p).isSome → 0 < s.grid.cells p.1 p.2

theorem SCInv2_init (d1 d2 k0 : ℕ) : SCInv2 (initState d1 d2 k0) := by
  refine ⟨rfl, List.nodup_nil, ?_⟩
  intro p h
  simp [initState, List.lookup] at h

theorem place_loop_spec2 (a : Agent) (tape : ℕ → ℕ) (fuel : ℕ)
    (h256 : a.reach % 256 ≠ 0) :
    ∀ (q : ℕ) (s : SCState) (acc : List (ℕ × ℕ)) (s2 : SCState) (acc2 : List (ℕ × ℕ)),
      place_loop a tape fuel q s acc = Res.ok (s2, acc2) →
      SCInv2 s → SCInv2 s2 := by
  intro q
  induction q with
  | zero =>
    intro s acc s2 acc2 h hinv
    cases h
    exact hinv
  | succ q ih =>
    intro s acc s2 acc2 h hinv
    unfold place_loop at h
    cases hspot : choose_empty_spot s.grid tape fuel s.k with
    | noFuel => rw [hspot] at h; cases h
    | err => rw [hspot] at h; cases h
    | found x y k2 =>
      rw [hspot] at h
      obtain ⟨hempty, hx, hy⟩ := choose_empty_spot_found s.grid tape fuel s.k x y k2 hspot
      have hnone : s.loc.lookup (x, y) = none := by
        rw [← Option.not_isSome_iff_eq_none]
        intro hs
        have := hinv.keyGrid (x, y) hs
        simp only at this
        omega
      have hins : dictInsert s.loc (x, y) s.cid = s.loc ++ [((x, y), s.cid)] :=
        dictInsert_of_lookup_none (x, y) s.cid s.loc hnone
      have hnotmem : (x, y) ∉ s.loc.map Prod.fst := by
        intro hmem
        have := (lookup_isSome_iff_pair s.loc (x, y)).2 hmem
        rw [hnone] at this
        cases this
      have h2 : place_loop a tape fuel q
          { grid := s.grid.set x y (a.reach % 256)
            loc := dictInsert s.loc (x, y) s.cid
            cid := s.cid + 1
            M := s.M
            placed := s.placed ++ [a.color]
            k := k2 } (acc ++ [(x, y)]) = Res.ok (s2, acc2) := h
      apply ih _ _ _ _ h2
      refine ⟨?_, ?_, ?_⟩
      · show (dictInsert s.loc (x, y) s.cid).map Prod.snd = List.range (s.cid + 1)
        rw [hins, List.map_append, hinv.locIds, List.range_succ]
        rfl
      · show ((dictInsert s.loc (x, y) s.cid).map Prod.fst).Nodup
        rw [hins, List.map_append]
        rw [List.nodup_append]
        refine ⟨hinv.keysNodup, by simp, ?_⟩
        intro p hp hq
        simp only [List.map_cons, List.map_nil, List.mem_singleton] at hq
        rw [hq] at hp
        exact hnotmem hp
      · intro p hp
        show 0 < (s.grid.set x y (a.reach % 256)).cells p.1 p.2
        simp only at hp
        rw [lookup_dictInsert] at hp
        rw [SCGrid.set_cells]
        by_cases hpk : p = (x, y)
        · rw [if_pos (by rw [Prod.ext_iff] at hpk; exact ⟨hpk.1, hpk.2⟩)]
          exact Nat.pos_of_ne_zero h256
        · rw [if_neg hpk] at hp
          rw [if_neg (by
            intro ⟨h1, h2⟩
            exact hpk (by rw [Prod.ext_iff]; exact ⟨h1, h2⟩))]
          exact hinv.keyGrid p hp

theorem process_type_spec2 (tape : ℕ → ℕ) (fuel : ℕ) (s s2 : SCState)
    (aq : Agent × ℕ) (h256 : aq.1.reach % 256 ≠ 0)
    (h : process_type tape fuel s aq = Res.ok s2) (hinv : SCInv2 s) : SCInv2 s2 := by
  unfold process_type at h
  cases hpl : place_loop aq.1 tape fuel aq.2 s [] with
  | noFuel => rw [hpl] at h; cases h
  | err => rw [hpl] at h; cases h
  | ok pr =>
    obtain ⟨sp, newA⟩ := pr
    rw [hpl] at h
    have hs2 : s2 = { sp with M := connect_agents sp.grid sp.loc newA sp.M } := by
      injection h with h'
      exact h'.symm
    have hinvp : SCInv2 sp := place_loop_spec2 aq.1 tape fuel h256 aq.2 s [] sp newA hpl hinv
    subst hs2
    exact ⟨hinvp.locIds, hinvp.keysNodup, hinvp.keyGrid⟩

theorem types_loop_spec2 (tape : ℕ → ℕ) (fuel : ℕ) :
    ∀ (l : List (Agent × ℕ)) (s s2 : SCState),
      (∀ aq ∈ l, aq.1.reach % 256 ≠ 0) →
      types_loop tape fuel l s = Res.ok s2 → SCInv2 s → SCInv2 s2 := by
  intro l
  induction l with
  | nil =>
    intro s s2 _ h hinv
    cases h
    exact hinv
  | cons aq rest ih =>
    intro s s2 hmem h hinv
    unfold types_loop at h
    cases hpt : process_type tape fuel s aq with
    | noFuel => rw [hpt] at h; cases h
    | err => rw [hpt] at h; cases h
    | ok s3 =>
      rw [hpt] at h
      exact ih s3 s2 (fun bq hbq => hmem bq (List.mem_cons_of_mem aq hbq)) h
        (process_type_spec2 tape fuel s s3 aq
          (hmem aq (List.mem_cons_self aq rest)) hpt hinv)

theorem run_attempt_spec (input : List (Agent × ℕ)) (d1 d2 : ℕ) (tape : ℕ → ℕ)
    (fuel k0 : ℕ) (s : SCState)
    (h : run_attempt input d1 d2 tape fuel k0 = Res.ok s) :
    SCInv input s ∧ s.cid = totalQuantity input ∧
    s.grid.d1 = d1 ∧ s.grid.d2 = d2 ∧
    s.placed = colorsOfInput (sortAgents input) := by
  unfold run_attempt at h
  obtain ⟨hinv, hcid, hd1, hd2, hplaced⟩ :=
    types_loop_spec input tape fuel (sortAgents input) (initState d1 d2 k0) s
      (fun aq haq => ⟨aq, (mem_sortAgents input aq).1 haq, rfl⟩) h
      (SCInv_init input d1 d2 k0)
  refine ⟨hinv, ?_, hd1, hd2, ?_⟩
  · rw [hcid]
    show 0 + totalQuantity (sortAgents input) = totalQuantity input
    rw [Nat.zero_add]
    exact totalQuantity_sortAgents input
  · rw [hplaced]
    rfl

theorem run_attempt_spec2 (input : List (Agent × ℕ)) (d1 d2 : ℕ) (tape : ℕ → ℕ)
    (fuel k0 : ℕ) (s : SCState)
    (h256 : ∀ aq ∈ input, aq.1.reach % 256 ≠ 0)
    (h : run_attempt input d1 d2 tape fuel k0 = Res.ok s) :
    s.loc.map Prod.snd = List.range (totalQuantity input) ∧
    (s.loc.map Prod.fst).Nodup := by
  unfold run_attempt at h
  have hinv2 : SCInv2 s :=
    types_loop_spec2 tape fuel (sortAgents input) (initState d1 d2 k0) s
      (fun aq haq => h256 aq ((mem_sortAgents input aq).1 haq)) h
      (SCInv2_init d1 d2 k0)
  have hcid : s.cid = totalQuantity input :=
    (run_attempt_spec input d1 d2 tape fuel k0 s (by unfold run_attempt; exact h)).2.1
  rw [← hcid]
  exact ⟨hinv2.locIds, hinv2.keysNodup⟩

theorem run_attempt_edge_bound (input : List (Agent × ℕ)) (d1 d2 : ℕ)
    (tape : ℕ → ℕ) (fuel k0 : ℕ) (s : SCState)
    (h : run_attempt input d1 d2 tape fuel k0 = Res.ok s) :
    ∀ e ∈ s.M, e.1 < totalQuantity input ∧ e.2 < totalQuantity input := by
  obtain ⟨hinv, hcid, -, -, -⟩ := run_attempt_spec input d1 d2 tape fuel k0 s h
  intro e he
  obtain ⟨pu, pv, au, av, hau, hav, heq, -, -, -⟩ := hinv.edgeProp e he
  have hu : au < s.cid := hinv.locVal pu au hau
  have hv : av < s.cid := hinv.locVal pv av hav
  rw [heq, ← hcid]
  exact normPair_lt hu hv

theorem msc_success_spec (input : List (Agent × ℕ)) (d1 d2 : ℕ) (fc : Bool)
    (tape : ℕ → ℕ) (fuel : ℕ) :
    ∀ (tries k0 : ℕ) (G : Graph) (lay : List (ℕ × ℚ × ℚ)) (cols : List String),
      msc_loop input d1 d2 fc tape fuel tries k0 = SCResult.success G lay cols →
      ∃ k1 s, run_attempt input d1 d2 tape fuel k1 = Res.ok s ∧
        G = ⟨List.range (totalQuantity input), s.M⟩ ∧
        lay = layoutOfState d1 d2 s ∧ cols = colorsOfInput input ∧
        (fc = true → is_connectedB ⟨List.range (totalQuantity input), s.M⟩ = true) := by
  intro tries
  induction tries with
  | zero =>
    intro k0 G lay cols h
    cases h
  | succ tries ih =>
    intro k0 G lay cols h
    unfold msc_loop at h
    cases hra : run_attempt input d1 d2 tape fuel k0 with
    | noFuel => rw [hra] at h; cases h
    | err => rw [hra] at h; cases h
    | ok s =>
      rw [hra] at h
      cases fc with
      | false =>
        have h2 : SCResult.success ⟨List.range (totalQuantity input), s.M⟩
            (layoutOfState d1 d2 s) (colorsOfInput input)
            = SCResult.success G lay cols := h
        cases h2
        exact ⟨k0, s, hra, rfl, rfl, rfl, fun hfc => by cases hfc⟩
      | true =>
        have h2 : (if totalQuantity input = 0 then SCResult.err
            else if is_connectedB ⟨List.range (totalQuantity input), s.M⟩ = true then
              SCResult.success ⟨List.range (totalQuantity input), s.M⟩
                (layoutOfState d1 d2 s) (colorsOfInput input)
            else msc_loop input d1 d2 true tape fuel tries s.k)
            = SCResult.success G lay cols := h
        by_cases h0 : totalQuantity input = 0
        · rw [if_pos h0] at h2
          cases h2
        · rw [if_neg h0] at h2
          by_cases hc : is_connectedB ⟨List.range (totalQuantity input), s.M⟩ = true
          · rw [if_pos hc] at h2
            cases h2
            exact ⟨k0, s, hra, rfl, rfl, rfl, fun _ => hc⟩
          · rw [if_neg hc] at h2
            exact ih s.k G lay cols h2

theorem msc_not_err (input : List (Agent × ℕ)) (d1 d2 : ℕ) (tape : ℕ → ℕ)
    (fuel : ℕ) (htot : totalQuantity input ≠ 0) (hd1 : 0 < d1) (hd2 : 0 < d2) :
    ∀ (tries k0 : ℕ),
      msc_loop input d1 d2 true tape fuel tries k0 ≠ SCResult.err := by
  intro tries
  induction tries with
  | zero =>
    intro k0 h
    cases h
  | succ tries ih =>
    intro k0 h
    unfold msc_loop at h
    cases hra : run_attempt input d1 d2 tape fuel k0 with
    | noFuel => rw [hra] at h; cases h
    | err =>
      unfold run_attempt at hra
      exact types_loop_not_err tape fuel (sortAgents input) (initState d1 d2 k0)
        hd1 hd2 hra
    | ok s =>
      rw [hra] at h
      have h2 : (if totalQuantity input = 0 then SCResult.err
          else if is_connectedB ⟨List.range (totalQuantity input), s.M⟩ = true then
            SCResult.success ⟨List.range (totalQuantity input), s.M⟩
              (layoutOfState d1 d2 s) (colorsOfInput input)
          else msc_loop input d1 d2 true tape fuel tries s.k)
          = SCResult.err := h
      rw [if_neg htot] at h2
      by_cases hc : is_connectedB ⟨List.range (totalQuantity input), s.M⟩ = true
      · rw [if_pos hc] at h2
        cases h2
      · rw [if_neg hc] at h2
        exact ih s.k h2

/-!
## The social-circles claims
-/

/-- C3 counterexample: with force_connected=True and an empty agent
mapping, the attempt completes, nx.Graph(M) is the null graph, and
nx.is_connected raises NetworkXPointlessConcept - the function signals
failure by exception instead of returning the None failure signal or a
connected graph. -/
theorem C3_counterexample :
    make_social_circles_network [] (3, 3) true 5 tapeZero 5 = SCResult.err := by rfl

/-- C3 (amended): when the requested agent count is nonzero and both grid
dimensions are positive, make_social_circles_network with
force_connected=True never raises: any returned graph has exactly one
connected component, and with max_tries exhausted (0 tries) it returns the
explicit failure signal. -/
theorem C3_connected_amended (input : List (Agent × ℕ)) (grid_size : ℕ × ℕ)
    (max_tries : ℕ) (tape : ℕ → ℕ) (fuel : ℕ) (htot : totalQuantity input ≠ 0)
    (hd1 : 0 < grid_size.1) (hd2 : 0 < grid_size.2) :
    (∀ G lay cols,
      make_social_circles_network input grid_size true max_tries tape fuel =
        SCResult.success G lay cols → OneComponent G) ∧
    make_social_circles_network input grid_size true max_tries tape fuel ≠
      SCResult.err ∧
    make_social_circles_network input grid_size true 0 tape fuel =
      SCResult.failure := by
  refine ⟨?_, ?_, rfl⟩
  · intro G lay cols h
    unfold make_social_circles_network at h
    obtain ⟨k1, s, hra, hG, -, -, hconn⟩ :=
      msc_success_spec input grid_size.1 grid_size.2 true tape fuel max_tries 0
        G lay cols h
    have hc := hconn rfl
    have hes := run_attempt_edge_bound input grid_size.1 grid_size.2 tape fuel k1 s hra
    rw [hG]
    exact is_connected_sound (totalQuantity input) s.M (Nat.pos_of_ne_zero htot) hes hc
  · unfold make_social_circles_network
    exact msc_not_err input grid_size.1 grid_size.2 tape fuel htot hd1 hd2 max_tries 0

/-- C3 witness: a concrete connected run (two agents of reach 2 on a 3x3
grid) instantiating the amended theorem. -/
theorem C3_witness :
    (∀ G lay cols,
      make_social_circles_network inputOneType (3, 3) true 5 tapeTwo 5 =
        SCResult.success G lay cols → OneComponent G) ∧
    make_social_circles_network inputOneType (3, 3) true 5 tapeTwo 5 ≠
      SCResult.err ∧
    make_social_circles_network inputOneType (3, 3) true 0 tapeTwo 5 =
      SCResult.failure :=
  C3_connected_amended inputOneType (3, 3) 5 tapeTwo 5 (by decide) (by decide)
    (by decide)

/-- C4: every edge of a returned graph joins the ids of two recorded agent
locations, and the squared Euclidean distance between those grid cells is
at most the squared reach of an input agent type whose (uint8-stored)
reach value occupies one of the two cells - the connection was initiated
by at least one side's reach. -/
theorem C4_edge_within_reach (input : List (Agent × ℕ)) (grid_size : ℕ × ℕ)
    (fc : Bool) (max_tries : ℕ) (tape : ℕ → ℕ) (fuel : ℕ)
    (G : Graph) (lay : List (ℕ × ℚ × ℚ)) (cols : List String)
    (h : make_social_circles_network input grid_size fc max_tries tape fuel =
      SCResult.success G lay cols) :
    ∃ k1 s, run_attempt input grid_size.1 grid_size.2 tape fuel k1 = Res.ok s ∧
      G.edges = s.M ∧
      ∀ e ∈ G.edges, ∃ pu pv au av,
        s.loc.lookup pu = some au ∧ s.loc.lookup pv = some av ∧
        e = normPair au av ∧
        ∃ aq ∈ input,
          dist2 pu.1 pu.2 pv.1 pv.2 ≤ (aq.1.reach : ℤ) ^ 2 ∧
          (s.grid.cells pu.1 pu.2 = aq.1.reach % 256 ∨
           s.grid.cells pv.1 pv.2 = aq.1.reach % 256) := by
  unfold make_social_circles_network at h
  obtain ⟨k1, s, hra, hG, -, -, -⟩ :=
    msc_success_spec input grid_size.1 grid_size.2 fc tape fuel max_tries 0
      G lay cols h
  obtain ⟨hinv, -, -, -, -⟩ := run_attempt_spec input grid_size.1 grid_size.2
    tape fuel k1 s hra
  refine ⟨k1, s, hra, by rw [hG], ?_⟩
  intro e he
  rw [hG] at he
  have he' : e ∈ s.M := he
  obtain ⟨pu, pv, au, av, hau, hav, heq, hgu, hgv, hd⟩ := hinv.edgeProp e he'
  rcases hd with hd | hd
  · obtain ⟨aq, haq, hcell⟩ := hinv.gridAgent pu.1 pu.2 hgu
    refine ⟨pu, pv, au, av, hau, hav, heq, aq, haq, ?_, Or.inl hcell⟩
    have h1 : ((aq.1.reach % 256 : ℕ) : ℤ) ≤ (aq.1.reach : ℤ) :=
      Int.ofNat_le.2 (Nat.mod_le _ _)
    have h2 : ((aq.1.reach % 256 : ℕ) : ℤ) ^ 2 ≤ (aq.1.reach : ℤ) ^ 2 :=
      pow_le_pow_left (by positivity) h1 2
    rw [hcell] at hd
    exact hd.trans h2
  · obtain ⟨aq, haq, hcell⟩ := hinv.gridAgent pv.1 pv.2 hgv
    refine ⟨pu, pv, au, av, hau, hav, heq, aq, haq, ?_, Or.inr hcell⟩
    have h1 : ((aq.1.reach % 256 : ℕ) : ℤ) ≤ (aq.1.reach : ℤ) :=
      Int.ofNat_le.2 (Nat.mod_le _ _)
    have h2 : ((aq.1.reach % 256 : ℕ) : ℤ) ^ 2 ≤ (aq.1.reach : ℤ) ^ 2 :=
      pow_le_pow_left (by positivity) h1 2
    rw [hcell] at hd
    exact hd.trans h2

/-- C4 witness: the concrete connected run of two reach-2 agents, with the
success hypothesis discharged by evaluation. -/
theorem C4_witness :
    ∃ k1 s, run_attempt inputOneType 3 3 tapeTwo 5 k1 = Res.ok s ∧
      (graphOf (make_social_circles_network inputOneType (3, 3) true 5 tapeTwo 5)).edges
        = s.M ∧
      ∀ e ∈ (graphOf
          (make_social_circles_network inputOneType (3, 3) true 5 tapeTwo 5)).edges,
        ∃ pu pv au av,
        s.loc.lookup pu = some au ∧ s.loc.lookup pv = some av ∧
        e = normPair au av ∧
        ∃ aq ∈ inputOneType,
          dist2 pu.1 pu.2 pv.1 pv.2 ≤ (aq.1.reach : ℤ) ^ 2 ∧
          (s.grid.cells pu.1 pu.2 = aq.1.reach % 256 ∨
           s.grid.cells pv.1 pv.2 = aq.1.reach % 256) :=
  C4_edge_within_reach inputOneType (3, 3) true 5 tapeTwo 5
    (graphOf (make_social_circles_network inputOneType (3, 3) true 5 tapeTwo 5))
    (layoutOf (make_social_circles_network inputOneType (3, 3) true 5 tapeTwo 5))
    (colorsOf (make_social_circles_network inputOneType (3, 3) true 5 tapeTwo 5))
    (by rfl)

/-- C7 counterexample: with two agent types whose dict order ("a" then
"b") differs from their descending-reach placement order ("b" then "a"),
the returned colors follow the dict iteration order, not the placement
order: the agent with node id 0 is a "b" agent but colors[0] is "a". -/
theorem C7_counterexample :
    colorsOf (make_social_circles_network inputTwoTypes (3, 3) false 5 tapeMix 5)
      = ["a", "b"] ∧
    placedOf (run_attempt inputTwoTypes 3 3 tapeMix 5 0) = ["b", "a"] ∧
    (["a", "b"] : List String) ≠ ["b", "a"] :=
  ⟨rfl, rfl, by decide⟩

/-- C7 (amended): the returned color sequence is quantity copies of each
type's color in the iteration order of the input mapping
(agent_type_to_quantity.items()), whereas the placement order - the color
of the agent holding each successive node id - follows the
descending-reach sorted order; the two coincide only when sorting leaves
the color sequence unchanged. -/
theorem C7_colors_amended (input : List (Agent × ℕ)) (grid_size : ℕ × ℕ)
    (fc : Bool) (max_tries : ℕ) (tape : ℕ → ℕ) (fuel : ℕ)
    (G : Graph) (lay : List (ℕ × ℚ × ℚ)) (cols : List String)
    (h : make_social_circles_network input grid_size fc max_tries tape fuel =
      SCResult.success G lay cols) :
    cols = colorsOfInput input ∧
    (∃ k1 s, run_attempt input grid_size.1 grid_size.2 tape fuel k1 = Res.ok s ∧
      s.placed = colorsOfInput (sortAgents input)) ∧
    (colorsOfInput (sortAgents input) = colorsOfInput input →
      cols = colorsOfInput (sortAgents input)) := by
  unfold make_social_circles_network at h
  obtain ⟨k1, s, hra, -, -, hcols, -⟩ :=
    msc_success_spec input grid_size.1 grid_size.2 fc tape fuel max_tries 0
      G lay cols h
  obtain ⟨-, -, -, -, hplaced⟩ := run_attempt_spec input grid_size.1 grid_size.2
    tape fuel k1 s hra
  exact ⟨hcols, ⟨k1, s, hra, hplaced⟩, fun he => by rw [hcols, he]⟩

/-- C7 witness: the two-type run instantiating the amended theorem, with
the success hypothesis discharged by evaluation. -/
theorem C7_witness :
    colorsOf (make_social_circles_network inputTwoTypes (3, 3) false 5 tapeMix 5)
      = colorsOfInput inputTwoTypes ∧
    (∃ k1 s, run_attempt inputTwoTypes 3 3 tapeMix 5 k1 = Res.ok s ∧
      s.placed = colorsOfInput (sortAgents inputTwoTypes)) ∧
    (colorsOfInput (sortAgents inputTwoTypes) = colorsOfInput inputTwoTypes →
      colorsOf (make_social_circles_network inputTwoTypes (3, 3) false 5 tapeMix 5)
        = colorsOfInput (sortAgents inputTwoTypes)) :=
  C7_colors_amended inputTwoTypes (3, 3) false 5 tapeMix 5
    (graphOf (make_social_circles_network inputTwoTypes (3, 3) false 5 tapeMix 5))
    (layoutOf (make_social_circles_network inputTwoTypes (3, 3) false 5 tapeMix 5))
    (colorsOf (make_social_circles_network inputTwoTypes (3, 3) false 5 tapeMix 5))
    (by rfl)

/-- C8: search_for_neighbors scans exactly the half-open bounding box
[x-r, min(d1-1, x+r)) x [y-r, min(d2-1, y+r)) around (x, y) with
r = grid[x, y] (Nat subtraction clips at 0), keeping occupied cells within
Euclidean distance r other than (x, y) itself; cells with i = x+r or
j = y+r, and cells on the clipped grid edge i = d1-1 or j = d2-1, are
excluded and never produce an edge. -/
theorem C8_bounding_box (g : SCGrid) (x y i j : ℕ) :
    ((i, j) ∈ search_for_neighbors g x y ↔
      x - g.cells x y ≤ i ∧ i < min (g.d1 - 1) (x + g.cells x y) ∧
      y - g.cells x y ≤ j ∧ j < min (g.d2 - 1) (y + g.cells x y) ∧
      0 < g.cells i j ∧ dist2 x y i j ≤ (g.cells x y : ℤ) ^ 2 ∧ (x, y) ≠ (i, j)) ∧
    (i = x + g.cells x y ∨ i = g.d1 - 1 ∨ j = y + g.cells x y ∨ j = g.d2 - 1 →
      (i, j) ∉ search_for_neighbors g x y) := by
  refine ⟨mem_search_for_neighbors g x y i j, ?_⟩
  intro hcase hmem
  obtain ⟨h1, h2, h3, h4, -, -, -⟩ := (mem_search_for_neighbors g x y i j).1 hmem
  rcases hcase with h0 | h0 | h0 | h0 <;> omega

/-- C9 counterexample: an agent type of reach 256 is stored as 0 in the
uint8 grid, so its cell still counts as empty: a second agent lands on the
same cell and overwrites its loc_to_id entry.  With two requested agents
the returned layout holds only id 1 - the ids are not 0..num_nodes-1 and
id 0 has no layout entry. -/
theorem C9_counterexample :
    (layoutOf (make_social_circles_network inputWrap (1, 1) false 5 tapeZero 5)).map
      Prod.fst = [1] ∧
    totalQuantity inputWrap = 2 ∧
    ([1] : List ℕ) ≠ List.range 2 :=
  ⟨rfl, rfl, by decide⟩

/-- C9 (amended): choose_empty_spot always returns an empty cell, and
provided every requested reach is nonzero modulo 256 (so the uint8 store
cannot make an occupied cell look empty), a completed placement pass
assigns ids exactly 0..num_nodes-1 in placement order, to distinct grid
cells, and the layout has exactly one entry per id. -/
theorem C9_dense_ids_amended (input : List (Agent × ℕ)) (d1 d2 : ℕ)
    (tape : ℕ → ℕ) (fuel k0 : ℕ)
    (h256 : ∀ aq ∈ input, aq.1.reach % 256 ≠ 0) :
    (∀ (g : SCGrid) (t : ℕ → ℕ) (f k x y k2 : ℕ),
      choose_empty_spot g t f k = SpotResult.found x y k2 → g.cells x y = 0) ∧
    ∀ s, run_attempt input d1 d2 tape fuel k0 = Res.ok s →
      s.loc.map Prod.snd = List.range (totalQuantity input) ∧
      (s.loc.map Prod.fst).Nodup ∧
      (layoutOfState d1 d2 s).map Prod.fst = List.range (totalQuantity input) := by
  constructor
  · intro g t f k x y k2 h
    exact (choose_empty_spot_found g t f k x y k2 h).1
  · intro s h
    obtain ⟨hids, hkeys⟩ := run_attempt_spec2 input d1 d2 tape fuel k0 s h256 h
    refine ⟨hids, hkeys, ?_⟩
    rw [← hids]
    unfold layoutOfState
    rw [List.map_map]
    rfl

/-- C9 witness: the two-agent reach-2 run instantiating the amended
theorem. -/
theorem C9_witness :
    (∀ (g : SCGrid) (t : ℕ → ℕ) (f k x y k2 : ℕ),
      choose_empty_spot g t f k = SpotResult.found x y k2 → g.cells x y = 0) ∧
    ∀ s, run_attempt inputOneType 3 3 tapeTwo 5 0 = Res.ok s →
      s.loc.map Prod.snd = List.range (totalQuantity inputOneType) ∧
      (s.loc.map Prod.fst).Nodup ∧
      (layoutOfState 3 3 s).map Prod.fst = List.range (totalQuantity inputOneType) :=
  C9_dense_ids_amended inputOneType 3 3 tapeTwo 5 0 (by decide)

end NetworkGen
